import Mathlib

/-!
Verification of the symmetric-group engine (`permutations.py`, `stabilizer.py`).

Embedding conventions:
* A Python dict `{k1: v1, ...}` mapping ints to ints is modelled as an
  association list sorted strictly by key (`Pdict`).  The insertion order of a
  dict is never observed by this code base: dicts are only compared by content
  (`==` on dicts, membership via `tuple(sorted(d.items()))` keys), so the
  key-sorted list is a canonical representative of the dict value.
* Python exceptions (`ValueError`, `KeyError`, `ZeroDivisionError`,
  `IndexError`) are modelled with `Except PyErr`.
* Unbounded `while` loops (`order`, the cycle walk in `to_cycles`) are
  modelled with an explicit fuel parameter; `.ok none` means the loop was
  still running when the fuel ran out, so "the loop terminates with result x"
  is "for some fuel the function returns `.ok (some x)`".
* `itertools.permutations(range(1, n+1))` enumerates all arrangements of
  `[1..n]`; it is modelled by `List.permutations (List.range' 1 n)`, which
  enumerates the same arrangements in a different (still deterministic)
  order.  No claim depends on the enumeration order of `generate_Sn`.
-/

namespace SymVer

/-- A Python int->int dict, as a key-sorted association list. -/
abbrev Pdict := List (ℕ × ℕ)

/-- `d.keys()` of a dict. -/
def dictKeys (d : Pdict) : List ℕ := d.map Prod.fst

/-- `d.values()` of a dict. -/
def dictValues (d : Pdict) : List ℕ := d.map Prod.snd

/-- Dict lookup `d[i]`, `none` when the key is absent (a `KeyError` site). -/
def dlookup (d : Pdict) (i : ℕ) : Option ℕ :=
  match d with
  | [] => none
  | (k, v) :: rest => if i = k then some v else dlookup rest i

/-- Total lookup with default `0`; every dict in this development has keys
`≥ 1`, so `0` never collides with a genuine value of a valid permutation's
argument outside its domain. -/
def dapply (d : Pdict) (i : ℕ) : ℕ := (dlookup d i).getD 0

/-- The Python exceptions raised by this code base. -/
inductive PyErr
  | valueError
  | keyError
  | zeroDivisionError
  | indexError
deriving DecidableEq

/-- Result of running a piece of Python code that may raise. -/
abbrev PyRes (α : Type) := Except PyErr α

instance {ε α : Type} [DecidableEq ε] [DecidableEq α] : DecidableEq (Except ε α) :=
  fun a b =>
  match a, b with
  | .ok x, .ok y =>
    if h : x = y then isTrue (by rw [h]) else isFalse (fun hc => h (Except.ok.inj hc))
  | .error e, .error f =>
    if h : e = f then isTrue (by rw [h]) else isFalse (fun hc => h (Except.error.inj hc))
  | .ok _, .error _ => isFalse (fun hc => Except.noConfusion hc)
  | .error _, .ok _ => isFalse (fun hc => Except.noConfusion hc)

/-- `make_permutation(mapping)`: return the dict unchanged if its key set
equals its value set, else raise `ValueError`. -/
def make_permutation (mapping : Pdict) : PyRes Pdict :=
  if (dictKeys mapping).toFinset = (dictValues mapping).toFinset then .ok mapping
  else .error .valueError

/-- `identity(n)`: the dict `{i: i for i in range(1, n+1)}`. -/
def identity (n : ℕ) : Pdict := (List.range' 1 n).map (fun i => (i, i))

/-- The comprehension `{i: sigma[tau[i]] for i in tau}`; a failing lookup
`sigma[tau[i]]` is a `KeyError`. -/
def composeAux (sigma : Pdict) : Pdict → PyRes Pdict
  | [] => .ok []
  | (i, ti) :: rest =>
    match dlookup sigma ti with
    | none => .error .keyError
    | some v =>
      match composeAux sigma rest with
      | .ok l => .ok ((i, v) :: l)
      | .error e => .error e

/-- `compose(sigma, tau)`: raise `ValueError` unless the two key sets agree,
then build `{i: sigma[tau[i]] for i in tau}`. -/
def compose (sigma tau : Pdict) : PyRes Pdict :=
  if (dictKeys sigma).toFinset = (dictKeys tau).toFinset then composeAux sigma tau
  else .error .valueError

/-- Dict item assignment `d[k] = v`, keeping the canonical key order
(overwrites an existing binding of `k`, like a Python dict). -/
def dsetItem (d : Pdict) (k v : ℕ) : Pdict :=
  match d with
  | [] => [(k, v)]
  | (k', v') :: rest =>
    if k = k' then (k, v) :: rest
    else if k < k' then (k, v) :: (k', v') :: rest
    else (k', v') :: dsetItem rest k v

/-- `inverse(sigma)`: the comprehension `{v: k for k, v in sigma.items()}`
(last binding of a repeated value wins, as in a Python dict). -/
def inverse (sigma : Pdict) : Pdict :=
  sigma.foldl (fun d p => dsetItem d p.2 p.1) []

/-- The loop `for _ in range(m): result = compose(result, base)`. -/
def powerLoop (base : Pdict) : Pdict → ℕ → PyRes Pdict
  | result, 0 => .ok result
  | result, m + 1 =>
    match compose result base with
    | .ok r => powerLoop base r m
    | .error e => .error e

/-- `power(sigma, k)` for an integer `k`. -/
def power (sigma : Pdict) (k : ℤ) : PyRes Pdict :=
  if k = 0 then .ok (identity sigma.length)
  else powerLoop (if k > 0 then sigma else inverse sigma) (identity sigma.length) k.natAbs

/-- The `while current != e` loop of `order`, with fuel: `.ok (some k)` means
the loop returned `k`, `.ok none` means it was still running after `fuel`
iterations. -/
def orderLoop (sigma e : Pdict) : Pdict → ℕ → ℕ → PyRes (Option ℕ)
  | current, k, 0 => if current = e then .ok (some k) else .ok none
  | current, k, fuel + 1 =>
    if current = e then .ok (some k)
    else
      match compose current sigma with
      | .ok c => orderLoop sigma e c (k + 1) fuel
      | .error err => .error err

/-- `order(sigma)` run for at most `fuel` loop iterations. -/
def orderFuel (sigma : Pdict) (fuel : ℕ) : PyRes (Option ℕ) :=
  orderLoop sigma (identity sigma.length) sigma 1 fuel

/-- `generate_Sn(n)`: one dict `dict(zip(range(1, n+1), perm))` per
arrangement `perm` of `[1..n]`. -/
def generate_Sn (n : ℕ) : List Pdict :=
  ((List.range' 1 n).permutations).map (fun vs => (List.range' 1 n).zip vs)

/-- The inner `while current not in visited` walk of `to_cycles`, with fuel.
Python order per iteration: test membership, add to `visited`, append to the
cycle, then look up `sigma[current]` (a `KeyError` site). -/
def cycleWalk (sigma : Pdict) : ℕ → Finset ℕ → List ℕ → ℕ → PyRes (Option (List ℕ × Finset ℕ))
  | current, visited, cyc, 0 =>
    if current ∈ visited then .ok (some (cyc, visited)) else .ok none
  | current, visited, cyc, fuel + 1 =>
    if current ∈ visited then .ok (some (cyc, visited))
    else
      match dlookup sigma current with
      | some nxt => cycleWalk sigma nxt (insert current visited) (cyc ++ [current]) fuel
      | none => .error .keyError

/-- The outer `for start in sorted(sigma.keys())` loop of `to_cycles`. -/
def toCyclesAux (sigma : Pdict) (fuel : ℕ) :
    List ℕ → Finset ℕ → List (List ℕ) → PyRes (Option (List (List ℕ)))
  | [], _, acc => .ok (some acc)
  | start :: rest, visited, acc =>
    if start ∈ visited then toCyclesAux sigma fuel rest visited acc
    else
      match cycleWalk sigma start visited [] fuel with
      | .ok (some (cyc, visited')) =>
        toCyclesAux sigma fuel rest visited'
          (if 1 < cyc.length then acc ++ [cyc] else acc)
      | .ok none => .ok none
      | .error e => .error e

/-- `to_cycles(sigma)` with fuel for each inner cycle walk. -/
def to_cycles (sigma : Pdict) (fuel : ℕ) : PyRes (Option (List (List ℕ))) :=
  toCyclesAux sigma fuel (List.insertionSort (· ≤ ·) (dictKeys sigma)) ∅ []

/-- `cycle_notation_str(sigma)`: `"e"` for the identity, else the
concatenation of the parenthesised space-separated cycles. -/
def cycle_notation_str (sigma : Pdict) (fuel : ℕ) : PyRes (Option String) :=
  match to_cycles sigma fuel with
  | .ok (some cycles) =>
    if cycles = [] then .ok (some "e")
    else .ok (some (String.join (cycles.map
      (fun c => "(" ++ String.intercalate " " (c.map toString) ++ ")"))))
  | .ok none => .ok none
  | .error e => .error e

/-- `tuple(sorted(s.items()))`: the canonical membership key used by
`is_subgroup` and the coset functions (lexicographic sort of the items). -/
def perm_key (sigma : Pdict) : Pdict :=
  List.insertionSort (fun p q : ℕ × ℕ => p.1 < q.1 ∨ (p.1 = q.1 ∧ p.2 ≤ q.2)) sigma

/-- Inner closure loop of `is_subgroup`: `for t in subset` at a fixed `s`. -/
def subgroupClosureInner (s : Pdict) (keys : List Pdict) : List Pdict → PyRes Bool
  | [] => .ok true
  | t :: rest =>
    match compose s t with
    | .error e => .error e
    | .ok st =>
      if perm_key st ∈ keys then subgroupClosureInner s keys rest else .ok false

/-- Outer closure loop of `is_subgroup`: `for s in subset`. -/
def subgroupClosure (keys subset : List Pdict) : List Pdict → PyRes Bool
  | [] => .ok true
  | s :: rest =>
    match subgroupClosureInner s keys subset with
    | .ok true => subgroupClosure keys subset rest
    | r => r

/-- Inverse-closure loop of `is_subgroup`. -/
def subgroupInverses (keys : List Pdict) : List Pdict → PyRes Bool
  | [] => .ok true
  | s :: rest =>
    if perm_key (inverse s) ∈ keys then subgroupInverses keys rest else .ok false

/-- `is_subgroup(subset, n)`: identity membership, closure under composition,
closure under inverses, all via `tuple(sorted(...))` keys.  (The `print`
diagnostics go to an external channel and are not part of the result.) -/
def is_subgroup (subset : List Pdict) (n : ℕ) : PyRes Bool :=
  let subset_keys := subset.map perm_key
  if perm_key (identity n) ∉ subset_keys then .ok false
  else
    match subgroupClosure subset_keys subset subset with
    | .ok true => subgroupInverses subset_keys subset
    | r => r

/-- `compute_stabilizer(Sn, fixed_point)`: the comprehension
`[sigma for sigma in Sn if sigma[fixed_point] == fixed_point]`
(`sigma[fixed_point]` is a `KeyError` site). -/
def compute_stabilizer : List Pdict → ℕ → PyRes (List Pdict)
  | [], _ => .ok []
  | sigma :: rest, x =>
    match dlookup sigma x with
    | none => .error .keyError
    | some v =>
      match compute_stabilizer rest x with
      | .ok l => .ok (if v = x then sigma :: l else l)
      | .error e => .error e

/-- `compute_orbit(Sn, point)`: the set `{sigma[point] for sigma in Sn}`. -/
def compute_orbit : List Pdict → ℕ → PyRes (Finset ℕ)
  | [], _ => .ok ∅
  | sigma :: rest, point =>
    match dlookup sigma point with
    | none => .error .keyError
    | some v =>
      match compute_orbit rest point with
      | .ok s => .ok (insert v s)
      | .error e => .error e

/-- `left_coset(sigma, subgroup)`: `[compose(sigma, h) for h in subgroup]`. -/
def left_coset (sigma : Pdict) : List Pdict → PyRes (List Pdict)
  | [] => .ok []
  | h :: rest =>
    match compose sigma h with
    | .error e => .error e
    | .ok sh =>
      match left_coset sigma rest with
      | .ok l => .ok (sh :: l)
      | .error e => .error e

/-- Main loop of `coset_decomposition`: scan `Sn`, opening a new left coset
for each element whose key is not yet covered. -/
def cosetLoop (subgroup : List Pdict) :
    List Pdict → Finset Pdict → List (List Pdict) → PyRes (List (List Pdict))
  | [], _, cosets => .ok cosets
  | sigma :: rest, covered, cosets =>
    if perm_key sigma ∈ covered then cosetLoop subgroup rest covered cosets
    else
      match left_coset sigma subgroup with
      | .error e => .error e
      | .ok coset =>
        cosetLoop subgroup rest (covered ∪ (coset.map perm_key).toFinset)
          (cosets ++ [coset])

/-- Python's stable `list.sort` on the 0/1 key
`0 if perm_key(c[0]) in subgroup_keys else 1`: the key-0 cosets move to the
front, each side keeping its original order. -/
def stableSortFront (p : List Pdict → Bool) (cosets : List (List Pdict)) :
    List (List Pdict) :=
  cosets.filter p ++ cosets.filter (fun c => !(p c))

/-- `coset_decomposition(Sn, subgroup)`.  The sort key reads `c[0]`, which
raises `IndexError` on an empty coset (only possible when `subgroup` is
empty and `Sn` is not). -/
def coset_decomposition (Sn subgroup : List Pdict) : PyRes (List (List Pdict)) :=
  let subgroup_keys := (subgroup.map perm_key).toFinset
  match cosetLoop subgroup Sn ∅ [] with
  | .error e => .error e
  | .ok cosets =>
    if cosets.all (fun c => !c.isEmpty) then
      .ok (stableSortFront (fun c => decide (perm_key (c.headD []) ∈ subgroup_keys)) cosets)
    else .error .indexError

/-- `verify_stabilizer(n, fixed_point, verbose)`: the five checks, in source
order.  `math.factorial(n-1)` is `(n-1).factorial` (for `n = 0` the
`KeyError` from `compute_stabilizer` fires first, as in the source), and
`len(Sn) // len(stab)` raises `ZeroDivisionError` on an empty stabilizer.
The `verbose` printing goes to an external channel. -/
def verify_stabilizer (n : ℕ) (fixed_point : ℕ) (verbose : Bool) : PyRes Bool := do
  let Sn := generate_Sn n
  let stab ← compute_stabilizer Sn fixed_point
  let orb ← compute_orbit Sn fixed_point
  let sub_check ← is_subgroup stab n
  let order_check := stab.length == (n - 1).factorial
  let os_check := Sn.length == orb.card * stab.length
  if stab.length == 0 then throw .zeroDivisionError
  let index := Sn.length / stab.length
  let index_check := index == n
  let cosets ← coset_decomposition Sn stab
  let coset_check := cosets.length == n && (cosets.map List.length).sum == Sn.length
  return sub_check && order_check && os_check && index_check && coset_check

/-- A valid permutation of `{1, ..., n}` in canonical dict form: the keys are
exactly the sorted list `[1..n]` and the values are an arrangement of it.
This is precisely the class of dicts produced by `generate_Sn(n)`. -/
def ValidPerm (n : ℕ) (d : Pdict) : Prop :=
  dictKeys d = List.range' 1 n ∧ (dictValues d).Perm (List.range' 1 n)

instance (n : ℕ) (d : Pdict) : Decidable (ValidPerm n d) := by
  unfold ValidPerm; exact instDecidableAnd

/-- The canonical dict of a function on `{1, ..., n}`. -/
def ofFun (n : ℕ) (f : ℕ → ℕ) : Pdict :=
  (List.range' 1 n).map (fun i => (i, f i))

/-- The value `compose` returns on valid same-domain permutations. -/
def compT (sigma tau : Pdict) : Pdict :=
  tau.map (fun p => (p.1, dapply sigma p.2))

/-- `dapply` transported to `Fin n` (identity outside the good case, so the
function is total). -/
def finApply (n : ℕ) (d : Pdict) (i : Fin n) : Fin n :=
  if h : dapply d (i.1 + 1) - 1 < n then ⟨dapply d (i.1 + 1) - 1, h⟩ else i

/-- The permutation of `Fin n` induced by a valid permutation dict (junk
value `1` when `d` is not one). -/
def toEquiv (n : ℕ) (d : Pdict) : Equiv.Perm (Fin n) :=
  if h : (∀ x, finApply n (inverse d) (finApply n d x) = x) ∧
         (∀ x, finApply n d (finApply n (inverse d) x) = x)
  then ⟨finApply n d, finApply n (inverse d), h.1, h.2⟩
  else 1

/-- The canonical dict of a permutation of `Fin n`. -/
def ofEquiv (n : ℕ) (pi : Equiv.Perm (Fin n)) : Pdict :=
  ofFun n (fun i => if h : i - 1 < n then (pi ⟨i - 1, h⟩).1 + 1 else i)


/-! ### Basic dictionary lemmas -/

theorem mem_range_one {n i : ℕ} : i ∈ List.range' 1 n ↔ 1 ≤ i ∧ i ≤ n := by
  rw [List.mem_range'_1]; omega

theorem dlookup_eq_none {d : Pdict} {k : ℕ} (h : k ∉ dictKeys d) : dlookup d k = none := by
  induction d with
  | nil => rfl
  | cons p rest ih =>
    obtain ⟨k', v'⟩ := p
    have hk : k ≠ k' := by
      intro hc; exact h (by simp [dictKeys, hc])
    simp only [dlookup, if_neg hk]
    exact ih (fun hc => h (by simp [dictKeys] at hc ⊢; exact Or.inr hc))

theorem dapply_eq_zero {d : Pdict} {k : ℕ} (h : k ∉ dictKeys d) : dapply d k = 0 := by
  simp [dapply, dlookup_eq_none h]

theorem dlookup_mem_keys {d : Pdict} {k : ℕ} (h : k ∈ dictKeys d) :
    dlookup d k = some (dapply d k) := by
  induction d with
  | nil => simp [dictKeys] at h
  | cons p rest ih =>
    obtain ⟨k', v'⟩ := p
    by_cases hk : k = k'
    · simp [dlookup, dapply, hk]
    · simp only [dictKeys, List.map_cons, List.mem_cons] at h
      rcases h with h | h
    
      · exact absurd h hk
      · simp only [dlookup, dapply, if_neg hk]
        exact ih h

theorem dapply_entry {d : Pdict} (hk : (dictKeys d).Nodup) {k v : ℕ} (h : (k, v) ∈ d) :
    dapply d k = v := by
  induction d with
  | nil => simp at h
  | cons p rest ih =>
    obtain ⟨k', v'⟩ := p
    simp only [dictKeys, List.map_cons, List.nodup_cons] at hk
    rcases List.mem_cons.mp h with h | h
    · obtain ⟨h1, h2⟩ := Prod.mk.injEq .. ▸ h
      simp [dapply, dlookup, h1, h2]
    · have hk' : k ≠ k' := by
        intro hc
        exact hk.1 (hc ▸ (List.mem_map.mpr ⟨(k, v), h, rfl⟩))
      simp only [dapply, dlookup, if_neg hk']
      exact ih hk.2 h

theorem mem_of_dapply_entry {d : Pdict} {k : ℕ} (h : k ∈ dictKeys d) :
    (k, dapply d k) ∈ d := by
  induction d with
  | nil => simp [dictKeys] at h
  | cons p rest ih =>
    obtain ⟨k', v'⟩ := p
    by_cases hk : k = k'
    · subst hk
      simp [dapply, dlookup]
    · simp only [dictKeys, List.map_cons, List.mem_cons] at h
      rcases h with h | h
      · exact absurd h hk
      · simp only [dapply, dlookup, if_neg hk]
        exact List.mem_cons_of_mem _ (ih h)

/-! ### `ofFun` and the canonical representation of valid permutations -/

theorem keys_ofFun (n : ℕ) (f : ℕ → ℕ) : dictKeys (ofFun n f) = List.range' 1 n := by
  unfold dictKeys ofFun
  rw [List.map_map]
  exact (List.map_congr_left (fun i _ => rfl)).trans (List.map_id _)

theorem values_ofFun (n : ℕ) (f : ℕ → ℕ) :
    dictValues (ofFun n f) = (List.range' 1 n).map f := by
  simp [dictValues, ofFun, List.map_map, Function.comp]

theorem dlookup_map_pair {l : List ℕ} (hl : l.Nodup) (f : ℕ → ℕ) (k : ℕ) :
    dlookup (l.map (fun i => (i, f i))) k = if k ∈ l then some (f k) else none := by
  induction l with
  | nil => simp [dlookup]
  | cons a rest ih =>
    simp only [List.nodup_cons] at hl
    by_cases hk : k = a
    · subst hk
      simp [dlookup]
    · simp only [List.map_cons, dlookup, if_neg hk, List.mem_cons]
      rw [ih hl.2]
      simp [hk]

theorem dapply_ofFun {n : ℕ} (f : ℕ → ℕ) (k : ℕ) :
    dapply (ofFun n f) k = if k ∈ List.range' 1 n then f k else 0 := by
  unfold dapply ofFun
  rw [dlookup_map_pair (List.nodup_range' 1 n) f k]
  by_cases h : k ∈ List.range' 1 n <;> simp [h]

theorem ValidPerm.keys_eq {n : ℕ} {d : Pdict} (h : ValidPerm n d) :
    dictKeys d = List.range' 1 n := h.1

theorem ValidPerm.keys_nodup {n : ℕ} {d : Pdict} (h : ValidPerm n d) :
    (dictKeys d).Nodup := h.1 ▸ List.nodup_range' 1 n

theorem ValidPerm.values_perm {n : ℕ} {d : Pdict} (h : ValidPerm n d) :
    (dictValues d).Perm (List.range' 1 n) := h.2

theorem ValidPerm.values_nodup {n : ℕ} {d : Pdict} (h : ValidPerm n d) :
    (dictValues d).Nodup := h.2.nodup_iff.mpr (List.nodup_range' 1 n)

theorem ValidPerm.length_eq {n : ℕ} {d : Pdict} (h : ValidPerm n d) : d.length = n := by
  have := congrArg List.length h.1
  simpa [dictKeys] using this

theorem valid_rep {n : ℕ} {d : Pdict} (h : ValidPerm n d) : d = ofFun n (dapply d) := by
  have h1 : d.map (fun p : ℕ × ℕ => (p.1, dapply d p.1)) = d.map id := by
    apply List.map_congr_left
    intro p hp
    have : dapply d p.1 = p.2 := dapply_entry h.keys_nodup (by simpa using hp)
    simp [this]
  have h2 : d.map (fun p : ℕ × ℕ => (p.1, dapply d p.1)) = d := by simpa using h1
  calc d = d.map (fun p : ℕ × ℕ => (p.1, dapply d p.1)) := h2.symm
    _ = (d.map Prod.fst).map (fun i => (i, dapply d i)) := by
        rw [List.map_map]
        exact List.map_congr_left (fun p _ => rfl)
    _ = ofFun n (dapply d) := by rw [← dictKeys, h.1, ofFun]

theorem ValidPerm.dapply_eq_of_not_mem {n : ℕ} {d : Pdict} (h : ValidPerm n d) {k : ℕ}
    (hk : k ∉ List.range' 1 n) : dapply d k = 0 :=
  dapply_eq_zero (h.1 ▸ hk)

theorem ValidPerm.dapply_zero {n : ℕ} {d : Pdict} (h : ValidPerm n d) : dapply d 0 = 0 :=
  h.dapply_eq_of_not_mem (by simp [mem_range_one])

theorem ValidPerm.values_eq_map {n : ℕ} {d : Pdict} (h : ValidPerm n d) :
    dictValues d = (List.range' 1 n).map (dapply d) := by
  conv_lhs => rw [valid_rep h]
  exact values_ofFun n (dapply d)

theorem ValidPerm.dapply_mem {n : ℕ} {d : Pdict} (h : ValidPerm n d) {k : ℕ}
    (hk : k ∈ List.range' 1 n) : dapply d k ∈ List.range' 1 n := by
  have : dapply d k ∈ dictValues d := by
    rw [h.values_eq_map]
    exact List.mem_map.mpr ⟨k, hk, rfl⟩
  exact h.2.mem_iff.mp this

theorem ValidPerm.dapply_inj {n : ℕ} {d : Pdict} (h : ValidPerm n d) {i j : ℕ}
    (hi : i ∈ List.range' 1 n) (hj : j ∈ List.range' 1 n)
    (hij : dapply d i = dapply d j) : i = j := by
  have hnd : ((List.range' 1 n).map (dapply d)).Nodup := h.values_eq_map ▸ h.values_nodup
  exact List.inj_on_of_nodup_map hnd hi hj hij

theorem ValidPerm.dapply_surj {n : ℕ} {d : Pdict} (h : ValidPerm n d) {y : ℕ}
    (hy : y ∈ List.range' 1 n) : ∃ i ∈ List.range' 1 n, dapply d i = y := by
  have : y ∈ dictValues d := h.2.mem_iff.mpr hy
  rw [h.values_eq_map] at this
  obtain ⟨i, hi, hiy⟩ := List.mem_map.mp this
  exact ⟨i, hi, hiy⟩

theorem valid_ext {n : ℕ} {d d' : Pdict} (h : ValidPerm n d) (h' : ValidPerm n d')
    (hagree : ∀ i ∈ List.range' 1 n, dapply d i = dapply d' i) : d = d' := by
  rw [valid_rep h, valid_rep h']
  unfold ofFun
  exact List.map_congr_left (fun i hi => by rw [hagree i hi])

theorem validPerm_ofFun {n : ℕ} {f : ℕ → ℕ}
    (hperm : ((List.range' 1 n).map f).Perm (List.range' 1 n)) :
    ValidPerm n (ofFun n f) :=
  ⟨keys_ofFun n f, (values_ofFun n f).symm ▸ hperm⟩

/-! ### The identity permutation -/

theorem identity_eq_ofFun (n : ℕ) : identity n = ofFun n id := rfl

theorem validPerm_identity (n : ℕ) : ValidPerm n (identity n) := by
  refine validPerm_ofFun ?_
  simp

theorem dapply_identity {n k : ℕ} :
    dapply (identity n) k = if k ∈ List.range' 1 n then k else 0 :=
  dapply_ofFun id k

theorem dapply_identity_of_mem {n k : ℕ} (h : k ∈ List.range' 1 n) :
    dapply (identity n) k = k := by
  rw [dapply_identity, if_pos h]

/-! ### `compose` on valid permutations -/

theorem composeAux_ok {sigma tau : Pdict} (h : ∀ p ∈ tau, p.2 ∈ dictKeys sigma) :
    composeAux sigma tau = .ok (compT sigma tau) := by
  induction tau with
  | nil => rfl
  | cons p rest ih =>
    obtain ⟨i, ti⟩ := p
    have hti : ti ∈ dictKeys sigma := h (i, ti) (List.mem_cons_self _ _)
    have hrest : composeAux sigma rest = .ok (compT sigma rest) :=
      ih (fun q hq => h q (List.mem_cons_of_mem _ hq))
    unfold composeAux
    rw [dlookup_mem_keys hti, hrest]
    rfl

theorem compose_ok {n : ℕ} {sigma tau : Pdict} (hσ : ValidPerm n sigma)
    (hτ : ValidPerm n tau) : compose sigma tau = .ok (compT sigma tau) := by
  unfold compose
  rw [if_pos (by rw [hσ.1, hτ.1])]
  refine composeAux_ok (fun p hp => ?_)
  have : p.2 ∈ dictValues tau := List.mem_map.mpr ⟨p, hp, rfl⟩
  rw [hσ.1]
  exact hτ.2.mem_iff.mp this

theorem compT_eq_ofFun {n : ℕ} {sigma tau : Pdict} (hτ : ValidPerm n tau) :
    compT sigma tau = ofFun n (fun i => dapply sigma (dapply tau i)) := by
  conv_lhs => rw [valid_rep hτ]
  unfold compT ofFun
  rw [List.map_map]
  exact List.map_congr_left (fun i hi => by simp [dapply_ofFun, hi])

theorem validPerm_compT {n : ℕ} {sigma tau : Pdict} (hσ : ValidPerm n sigma)
    (hτ : ValidPerm n tau) : ValidPerm n (compT sigma tau) := by
  rw [compT_eq_ofFun hτ]
  refine validPerm_ofFun ?_
  have h1 : (List.range' 1 n).map (fun i => dapply sigma (dapply tau i)) =
      ((List.range' 1 n).map (dapply tau)).map (dapply sigma) := by
    rw [List.map_map]
    exact List.map_congr_left (fun i _ => rfl)
  rw [h1, ← hτ.values_eq_map]
  have p1 : ((dictValues tau).map (dapply sigma)).Perm
      ((List.range' 1 n).map (dapply sigma)) := hτ.2.map _
  rw [← hσ.values_eq_map] at p1
  exact p1.trans hσ.2

theorem dapply_compT {n : ℕ} {sigma tau : Pdict} (hσ : ValidPerm n sigma)
    (hτ : ValidPerm n tau) (i : ℕ) :
    dapply (compT sigma tau) i = dapply sigma (dapply tau i) := by
  rw [compT_eq_ofFun hτ, dapply_ofFun]
  by_cases hi : i ∈ List.range' 1 n
  · rw [if_pos hi]
  · rw [if_neg hi, hτ.dapply_eq_of_not_mem hi, hσ.dapply_zero]

theorem compT_assoc {n : ℕ} {a b c : Pdict} (ha : ValidPerm n a) (hb : ValidPerm n b)
    (hc : ValidPerm n c) : compT (compT a b) c = compT a (compT b c) := by
  refine valid_ext (validPerm_compT (validPerm_compT ha hb) hc)
    (validPerm_compT ha (validPerm_compT hb hc)) (fun i _ => ?_)
  rw [dapply_compT (validPerm_compT ha hb) hc, dapply_compT ha hb,
    dapply_compT ha (validPerm_compT hb hc), dapply_compT hb hc]

theorem compT_identity_right {n : ℕ} {sigma : Pdict} (hσ : ValidPerm n sigma) :
    compT sigma (identity n) = sigma := by
  refine valid_ext (validPerm_compT hσ (validPerm_identity n)) hσ (fun i hi => ?_)
  rw [dapply_compT hσ (validPerm_identity n), dapply_identity_of_mem hi]

theorem compT_identity_left {n : ℕ} {sigma : Pdict} (hσ : ValidPerm n sigma) :
    compT (identity n) sigma = sigma := by
  refine valid_ext (validPerm_compT (validPerm_identity n) hσ) hσ (fun i hi => ?_)
  rw [dapply_compT (validPerm_identity n) hσ, dapply_identity_of_mem (hσ.dapply_mem hi)]

/-! ### `inverse` on valid permutations -/

theorem dsetItem_perm {d : Pdict} {k : ℕ} (v : ℕ) (h : k ∉ dictKeys d) :
    (dsetItem d k v).Perm ((k, v) :: d) := by
  induction d with
  | nil => simp [dsetItem]
  | cons p rest ih =>
    obtain ⟨k', v'⟩ := p
    have hk : k ≠ k' := fun hc => h (by simp [dictKeys, hc])
    have hrest : k ∉ dictKeys rest := fun hc => h (by simp [dictKeys] at hc ⊢; exact Or.inr hc)
    unfold dsetItem
    rw [if_neg hk]
    by_cases hlt : k < k'
    · rw [if_pos hlt]
    · rw [if_neg hlt]
      exact ((ih hrest).cons _).trans (List.Perm.swap (k, v) (k', v') rest)

theorem keys_dsetItem_perm {d : Pdict} {k : ℕ} (v : ℕ) (h : k ∉ dictKeys d) :
    (dictKeys (dsetItem d k v)).Perm (k :: dictKeys d) := by
  have := (dsetItem_perm v h).map Prod.fst
  simpa [dictKeys] using this

theorem dsetItem_sorted {d : Pdict} {k : ℕ} (v : ℕ) (h : k ∉ dictKeys d)
    (hs : List.Sorted (· < ·) (dictKeys d)) :
    List.Sorted (· < ·) (dictKeys (dsetItem d k v)) := by
  induction d with
  | nil => simp [dsetItem, dictKeys]
  | cons p rest ih =>
    obtain ⟨k', v'⟩ := p
    have hk : k ≠ k' := fun hc => h (by simp [dictKeys, hc])
    have hrest : k ∉ dictKeys rest := fun hc => h (by simp [dictKeys] at hc ⊢; exact Or.inr hc)
    simp only [dictKeys, List.map_cons, List.sorted_cons] at hs
    unfold dsetItem
    rw [if_neg hk]
    by_cases hlt : k < k'
    · rw [if_pos hlt]
      simp only [dictKeys, List.map_cons, List.sorted_cons]
      refine ⟨fun b hb => ?_, hs⟩
      rcases List.mem_cons.mp hb with hb | hb
      · omega
      · exact lt_trans hlt (hs.1 b hb)
    · rw [if_neg hlt]
      have hgt : k' < k := by omega
      simp only [dictKeys, List.map_cons, List.sorted_cons]
      refine ⟨fun b hb => ?_, ih hrest hs.2⟩
      have : b ∈ k :: dictKeys rest := (keys_dsetItem_perm v hrest).mem_iff.mp hb
      rcases List.mem_cons.mp this with hb' | hb'
      · omega
      · exact hs.1 b hb'

theorem inverse_fold_spec {l : List (ℕ × ℕ)} (hl : (l.map Prod.snd).Nodup) :
    ∀ acc : Pdict, List.Sorted (· < ·) (dictKeys acc) →
    (∀ p ∈ l, p.2 ∉ dictKeys acc) →
    List.Sorted (· < ·) (dictKeys (l.foldl (fun d p => dsetItem d p.2 p.1) acc)) ∧
    (l.foldl (fun d p => dsetItem d p.2 p.1) acc).Perm (acc ++ l.map Prod.swap) := by
  induction l with
  | nil => intro acc hacc _; exact ⟨hacc, by simp⟩
  | cons p rest ih =>
    intro acc hacc hdisj
    obtain ⟨a, b⟩ := p
    simp only [List.map_cons, List.nodup_cons] at hl
    have hb : b ∉ dictKeys acc := hdisj (a, b) (List.mem_cons_self _ _)
    have hstep_sorted : List.Sorted (· < ·) (dictKeys (dsetItem acc b a)) :=
      dsetItem_sorted a hb hacc
    have hstep_perm : (dsetItem acc b a).Perm ((b, a) :: acc) := dsetItem_perm a hb
    have hkeys : (dictKeys (dsetItem acc b a)).Perm (b :: dictKeys acc) :=
      keys_dsetItem_perm a hb
    have hdisj' : ∀ q ∈ rest, q.2 ∉ dictKeys (dsetItem acc b a) := by
      intro q hq hmem
      rcases List.mem_cons.mp (hkeys.mem_iff.mp hmem) with hq' | hq'
      · exact hl.1 (hq' ▸ List.mem_map.mpr ⟨q, hq, rfl⟩)
      · exact hdisj q (List.mem_cons_of_mem _ hq) hq'
    obtain ⟨hs, hp⟩ := ih hl.2 (dsetItem acc b a) hstep_sorted hdisj'
    refine ⟨hs, ?_⟩
    simp only [List.foldl_cons, List.map_cons, Prod.swap_prod_mk]
    refine hp.trans ?_
    refine (hstep_perm.append_right _).trans ?_
    exact List.perm_middle.symm

theorem inverse_perm_swap {sigma : Pdict} (h : (dictValues sigma).Nodup) :
    (inverse sigma).Perm (sigma.map Prod.swap) ∧
    List.Sorted (· < ·) (dictKeys (inverse sigma)) := by
  have := inverse_fold_spec (l := sigma) h [] (by simp [dictKeys]) (by simp [dictKeys])
  exact ⟨by simpa using this.2, this.1⟩

theorem validPerm_inverse {n : ℕ} {sigma : Pdict} (h : ValidPerm n sigma) :
    ValidPerm n (inverse sigma) := by
  obtain ⟨hperm, hsorted⟩ := inverse_perm_swap h.values_nodup
  have hkeys : (dictKeys (inverse sigma)).Perm (List.range' 1 n) := by
    have h1 : (dictKeys (inverse sigma)).Perm (dictValues sigma) := by
      have := hperm.map Prod.fst
      simpa [dictKeys, dictValues, List.map_map] using this
    exact h1.trans h.2
  constructor
  · exact List.eq_of_perm_of_sorted hkeys hsorted
      ((List.pairwise_lt_range' 1 n 1).imp (fun hab => hab))
  · have h2 : (dictValues (inverse sigma)).Perm (dictKeys sigma) := by
      have := hperm.map Prod.snd
      simpa [dictKeys, dictValues, List.map_map] using this
    rw [h.1] at h2
    exact h2

theorem dapply_inverse_dapply {n : ℕ} {sigma : Pdict} (h : ValidPerm n sigma) {i : ℕ}
    (hi : i ∈ List.range' 1 n) : dapply (inverse sigma) (dapply sigma i) = i := by
  obtain ⟨hperm, _⟩ := inverse_perm_swap h.values_nodup
  have hmem : (i, dapply sigma i) ∈ sigma := mem_of_dapply_entry (h.1 ▸ hi)
  have : (dapply sigma i, i) ∈ inverse sigma :=
    hperm.mem_iff.mpr (List.mem_map.mpr ⟨(i, dapply sigma i), hmem, rfl⟩)
  exact dapply_entry (validPerm_inverse h).keys_nodup this

theorem dapply_dapply_inverse {n : ℕ} {sigma : Pdict} (h : ValidPerm n sigma) {j : ℕ}
    (hj : j ∈ List.range' 1 n) : dapply sigma (dapply (inverse sigma) j) = j := by
  obtain ⟨i, hi, rfl⟩ := h.dapply_surj hj
  rw [dapply_inverse_dapply h hi]

theorem compT_inverse_right {n : ℕ} {sigma : Pdict} (h : ValidPerm n sigma) :
    compT sigma (inverse sigma) = identity n := by
  refine valid_ext (validPerm_compT h (validPerm_inverse h)) (validPerm_identity n)
    (fun i hi => ?_)
  rw [dapply_compT h (validPerm_inverse h), dapply_dapply_inverse h hi,
    dapply_identity_of_mem hi]

theorem compT_inverse_left {n : ℕ} {sigma : Pdict} (h : ValidPerm n sigma) :
    compT (inverse sigma) sigma = identity n := by
  refine valid_ext (validPerm_compT (validPerm_inverse h) h) (validPerm_identity n)
    (fun i hi => ?_)
  rw [dapply_compT (validPerm_inverse h) h, dapply_inverse_dapply h hi,
    dapply_identity_of_mem hi]

/-! ### The bridge to `Equiv.Perm (Fin n)` -/

theorem finApply_coe {n : ℕ} {d : Pdict} (h : ValidPerm n d) (i : Fin n) :
    ((finApply n d i) : ℕ) + 1 = dapply d (i.1 + 1) := by
  have hmem : i.1 + 1 ∈ List.range' 1 n := mem_range_one.mpr (by omega)
  have hval : dapply d (i.1 + 1) ∈ List.range' 1 n := h.dapply_mem hmem
  rw [mem_range_one] at hval
  have hlt : dapply d (i.1 + 1) - 1 < n := by omega
  unfold finApply
  rw [dif_pos hlt]
  simp only []
  omega

theorem toEquiv_cond {n : ℕ} {d : Pdict} (h : ValidPerm n d) :
    (∀ x, finApply n (inverse d) (finApply n d x) = x) ∧
    (∀ x, finApply n d (finApply n (inverse d) x) = x) := by
  have hinv := validPerm_inverse h
  constructor
  · intro x
    apply Fin.ext
    have h1 := finApply_coe h x
    have h2 := finApply_coe hinv (finApply n d x)
    rw [h1] at h2
    have hmem : x.1 + 1 ∈ List.range' 1 n := mem_range_one.mpr (by omega)
    rw [dapply_inverse_dapply h hmem] at h2
    omega
  · intro x
    apply Fin.ext
    have h1 := finApply_coe hinv x
    have h2 := finApply_coe h (finApply n (inverse d) x)
    rw [h1] at h2
    have hmem : x.1 + 1 ∈ List.range' 1 n := mem_range_one.mpr (by omega)
    rw [dapply_dapply_inverse h hmem] at h2
    omega

theorem toEquiv_apply {n : ℕ} {d : Pdict} (h : ValidPerm n d) :
    ⇑(toEquiv n d) = finApply n d := by
  unfold toEquiv
  rw [dif_pos (toEquiv_cond h)]
  rfl

theorem toEquiv_coe {n : ℕ} {d : Pdict} (h : ValidPerm n d) (i : Fin n) :
    ((toEquiv n d i) : ℕ) + 1 = dapply d (i.1 + 1) := by
  rw [toEquiv_apply h]
  exact finApply_coe h i

theorem dapply_toEquiv {n : ℕ} {d : Pdict} (h : ValidPerm n d) {i : ℕ}
    (hi : i ∈ List.range' 1 n) :
    dapply d i = (toEquiv n d ⟨i - 1, by rw [mem_range_one] at hi; omega⟩ : ℕ) + 1 := by
  rw [mem_range_one] at hi
  have := toEquiv_coe h ⟨i - 1, by omega⟩
  simp only [] at this
  rw [show i - 1 + 1 = i from by omega] at this
  omega

theorem toEquiv_compT {n : ℕ} {a b : Pdict} (ha : ValidPerm n a) (hb : ValidPerm n b) :
    toEquiv n (compT a b) = toEquiv n a * toEquiv n b := by
  apply Equiv.ext
  intro i
  apply Fin.ext
  have h1 := toEquiv_coe (validPerm_compT ha hb) i
  rw [dapply_compT ha hb] at h1
  have h2 := toEquiv_coe hb i
  rw [← h2] at h1
  have h3 := toEquiv_coe ha (toEquiv n b i)
  rw [← h3] at h1
  have : ((toEquiv n a * toEquiv n b) i : ℕ) = (toEquiv n a (toEquiv n b i) : ℕ) := by
    rw [Equiv.Perm.mul_apply]
  omega

theorem toEquiv_identity (n : ℕ) : toEquiv n (identity n) = 1 := by
  apply Equiv.ext
  intro i
  apply Fin.ext
  have h1 := toEquiv_coe (validPerm_identity n) i
  rw [dapply_identity_of_mem (mem_range_one.mpr (by omega))] at h1
  simp only [Equiv.Perm.one_apply]
  omega

theorem toEquiv_inverse {n : ℕ} {d : Pdict} (h : ValidPerm n d) :
    toEquiv n (inverse d) = (toEquiv n d)⁻¹ := by
  have := toEquiv_compT h (validPerm_inverse h)
  rw [compT_inverse_right h, toEquiv_identity] at this
  exact eq_inv_of_mul_eq_one_right this.symm

theorem toEquiv_inj {n : ℕ} {d d' : Pdict} (h : ValidPerm n d) (h' : ValidPerm n d')
    (heq : toEquiv n d = toEquiv n d') : d = d' := by
  refine valid_ext h h' (fun i hi => ?_)
  rw [dapply_toEquiv h hi, dapply_toEquiv h' hi, heq]

theorem dapply_ofEquiv {n : ℕ} (pi : Equiv.Perm (Fin n)) {i : ℕ}
    (hi : i ∈ List.range' 1 n) :
    dapply (ofEquiv n pi) i = (pi ⟨i - 1, by rw [mem_range_one] at hi; omega⟩ : ℕ) + 1 := by
  rw [mem_range_one] at hi
  unfold ofEquiv
  rw [dapply_ofFun, if_pos (mem_range_one.mpr hi), dif_pos (show i - 1 < n from by omega)]

theorem validPerm_ofEquiv {n : ℕ} (pi : Equiv.Perm (Fin n)) : ValidPerm n (ofEquiv n pi) := by
  refine validPerm_ofFun ?_
  have hcong : (List.range' 1 n).map (fun i => if h : i - 1 < n then (pi ⟨i - 1, h⟩).1 + 1 else i)
      = (List.range' 1 n).map (dapply (ofEquiv n pi)) := by
    refine List.map_congr_left (fun i hi => ?_)
    have hb : i - 1 < n := by rw [mem_range_one] at hi; omega
    rw [dapply_ofEquiv pi hi, dif_pos hb]
  rw [hcong]
  have hnodup : ((List.range' 1 n).map (dapply (ofEquiv n pi))).Nodup := by
    refine List.Nodup.map_on ?_ (List.nodup_range' 1 n)
    intro a ha b hb hab
    have ha' := mem_range_one.mp ha
    have hb' := mem_range_one.mp hb
    rw [dapply_ofEquiv pi ha, dapply_ofEquiv pi hb] at hab
    have hfin : pi ⟨a - 1, by omega⟩ = pi ⟨b - 1, by omega⟩ := Fin.ext (by omega)
    have := pi.injective hfin
    simp only [Fin.mk.injEq] at this
    omega
  have hmem : ∀ z, z ∈ (List.range' 1 n).map (dapply (ofEquiv n pi)) ↔ z ∈ List.range' 1 n := by
    intro z
    constructor
    · intro hz
      obtain ⟨i, hi, rfl⟩ := List.mem_map.mp hz
      rw [dapply_ofEquiv pi hi, mem_range_one]
      have := (pi ⟨i - 1, by rw [mem_range_one] at hi; omega⟩).2
      omega
    · intro hz
      have hz' := mem_range_one.mp hz
      have hzb : z - 1 < n := by omega
      set j : Fin n := pi.symm ⟨z - 1, hzb⟩ with hj
      have hjmem : j.1 + 1 ∈ List.range' 1 n := mem_range_one.mpr (by have := j.2; omega)
      refine List.mem_map.mpr ⟨j.1 + 1, hjmem, ?_⟩
      rw [dapply_ofEquiv pi hjmem]
      have hfin : (⟨j.1 + 1 - 1, by have := j.2; omega⟩ : Fin n) = j :=
        Fin.ext (by show j.1 + 1 - 1 = j.1; omega)
      rw [hfin, hj, Equiv.apply_symm_apply]
      show z - 1 + 1 = z
      omega
  exact List.perm_of_nodup_nodup_toFinset_eq hnodup (List.nodup_range' 1 n)
    (Finset.ext (fun z => by rw [List.mem_toFinset, List.mem_toFinset]; exact hmem z))

theorem toEquiv_ofEquiv {n : ℕ} (pi : Equiv.Perm (Fin n)) :
    toEquiv n (ofEquiv n pi) = pi := by
  apply Equiv.ext
  intro i
  apply Fin.ext
  have h1 := toEquiv_coe (validPerm_ofEquiv pi) i
  have hmem : i.1 + 1 ∈ List.range' 1 n := mem_range_one.mpr (by omega)
  rw [dapply_ofEquiv pi hmem] at h1
  have hsimp : (⟨i.1 + 1 - 1, by omega⟩ : Fin n) = i :=
    Fin.ext (by show i.1 + 1 - 1 = i.1; omega)
  rw [hsimp] at h1
  omega

/-! ### `generate_Sn` -/

theorem mem_generate_Sn {n : ℕ} {d : Pdict} : d ∈ generate_Sn n ↔ ValidPerm n d := by
  constructor
  · intro hd
    obtain ⟨vs, hvs, rfl⟩ := List.mem_map.mp hd
    have hperm : vs.Perm (List.range' 1 n) := List.mem_permutations.mp hvs
    have hlen : vs.length = n := by
      rw [hperm.length_eq, List.length_range']
    constructor
    · unfold dictKeys
      exact List.map_fst_zip _ _ (by rw [hlen, List.length_range'])
    · unfold dictValues
      rw [List.map_snd_zip _ _ (by rw [hlen, List.length_range'])]
      exact hperm
  · intro hd
    refine List.mem_map.mpr ⟨dictValues d, List.mem_permutations.mpr hd.2, ?_⟩
    conv_rhs => rw [valid_rep hd]
    rw [hd.values_eq_map]
    have := List.zip_map' id (dapply d) (List.range' 1 n)
    rw [List.map_id] at this
    rw [this]
    rfl

theorem nodup_generate_Sn (n : ℕ) : (generate_Sn n).Nodup := by
  unfold generate_Sn
  refine List.Nodup.map_on ?_ (List.nodup_permutations _ (List.nodup_range' 1 n))
  intro vs hvs ws hws heq
  have hlv : vs.length = n := by
    rw [(List.mem_permutations.mp hvs).length_eq, List.length_range']
  have hlw : ws.length = n := by
    rw [(List.mem_permutations.mp hws).length_eq, List.length_range']
  have h1 : List.map Prod.snd ((List.range' 1 n).zip vs) = vs :=
    List.map_snd_zip _ _ (by rw [hlv, List.length_range'])
  have h2 : List.map Prod.snd ((List.range' 1 n).zip ws) = ws :=
    List.map_snd_zip _ _ (by rw [hlw, List.length_range'])
  rw [← h1, ← h2, heq]

theorem length_generate_Sn (n : ℕ) : (generate_Sn n).length = n.factorial := by
  unfold generate_Sn
  rw [List.length_map, List.length_permutations, List.length_range']

/-! ### `power` and `order` -/

theorem powerLoop_ok {n : ℕ} {base : Pdict} (hbase : ValidPerm n base) :
    ∀ (m : ℕ) (cur : Pdict), ValidPerm n cur →
    ∃ r, powerLoop base cur m = .ok r ∧ ValidPerm n r ∧
      toEquiv n r = toEquiv n cur * (toEquiv n base) ^ m := by
  intro m
  induction m with
  | zero =>
    intro cur hcur
    exact ⟨cur, rfl, hcur, by rw [pow_zero, mul_one]⟩
  | succ m ih =>
    intro cur hcur
    obtain ⟨r, hr, hrv, hre⟩ := ih (compT cur base) (validPerm_compT hcur hbase)
    refine ⟨r, ?_, hrv, ?_⟩
    · unfold powerLoop
      rw [compose_ok hcur hbase]
      exact hr
    · rw [hre, toEquiv_compT hcur hbase, pow_succ', mul_assoc]

theorem power_ok {n : ℕ} {sigma : Pdict} (h : ValidPerm n sigma) (k : ℤ) :
    ∃ r, power sigma k = .ok r ∧ ValidPerm n r ∧
      toEquiv n r = (toEquiv n sigma) ^ k := by
  unfold power
  rw [h.length_eq]
  by_cases hk : k = 0
  · subst hk
    exact ⟨identity n, by rw [if_pos rfl], validPerm_identity n, by
      rw [toEquiv_identity, zpow_zero]⟩
  · rw [if_neg hk]
    by_cases hpos : k > 0
    · rw [if_pos hpos]
      obtain ⟨r, hr, hrv, hre⟩ := powerLoop_ok h k.natAbs (identity n) (validPerm_identity n)
      refine ⟨r, hr, hrv, ?_⟩
      rw [hre, toEquiv_identity, one_mul]
      rw [show ((toEquiv n sigma) ^ k.natAbs : Equiv.Perm (Fin n)) =
        (toEquiv n sigma) ^ (k.natAbs : ℤ) from (zpow_natCast _ _).symm]
      congr 1
      omega
    · rw [if_neg hpos]
      obtain ⟨r, hr, hrv, hre⟩ := powerLoop_ok (validPerm_inverse h) k.natAbs (identity n)
        (validPerm_identity n)
      refine ⟨r, hr, hrv, ?_⟩
      rw [hre, toEquiv_identity, one_mul, toEquiv_inverse h, inv_pow,
        show ((toEquiv n sigma) ^ k.natAbs : Equiv.Perm (Fin n)) =
          (toEquiv n sigma) ^ (k.natAbs : ℤ) from (zpow_natCast _ _).symm,
        ← zpow_neg]
      congr 1
      omega

theorem orderLoop_ok {n : ℕ} {sigma : Pdict} (h : ValidPerm n sigma) :
    ∀ (fuel k : ℕ) (current : Pdict), ValidPerm n current →
    toEquiv n current = (toEquiv n sigma) ^ k →
    1 ≤ k → k ≤ orderOf (toEquiv n sigma) →
    orderOf (toEquiv n sigma) - k ≤ fuel →
    orderLoop sigma (identity n) current k fuel = .ok (some (orderOf (toEquiv n sigma))) := by
  intro fuel
  induction fuel with
  | zero =>
    intro k current hcur hce hk1 hkK hfuel
    have hkK' : k = orderOf (toEquiv n sigma) := by omega
    subst hkK'
    have : current = identity n := by
      refine toEquiv_inj hcur (validPerm_identity n) ?_
      rw [hce, pow_orderOf_eq_one, toEquiv_identity]
    unfold orderLoop
    rw [if_pos this]
  | succ fuel ih =>
    intro k current hcur hce hk1 hkK hfuel
    by_cases hkK' : k = orderOf (toEquiv n sigma)
    · subst hkK'
      have : current = identity n := by
        refine toEquiv_inj hcur (validPerm_identity n) ?_
        rw [hce, pow_orderOf_eq_one, toEquiv_identity]
      unfold orderLoop
      rw [if_pos this]
    · have hklt : k < orderOf (toEquiv n sigma) := by omega
      have hne : current ≠ identity n := by
        intro hc
        have : (toEquiv n sigma) ^ k = 1 := by
          rw [← hce, hc, toEquiv_identity]
        have := orderOf_le_of_pow_eq_one (by omega) this
        omega
      unfold orderLoop
      rw [if_neg hne, compose_ok hcur h]
      exact ih (k + 1) (compT current sigma) (validPerm_compT hcur h)
        (by rw [toEquiv_compT hcur h, hce, ← pow_succ]) (by omega) (by omega) (by omega)

theorem orderFuel_ok {n : ℕ} {sigma : Pdict} (h : ValidPerm n sigma) :
    orderFuel sigma (orderOf (toEquiv n sigma) - 1) =
      .ok (some (orderOf (toEquiv n sigma))) := by
  unfold orderFuel
  rw [h.length_eq]
  have hpos : 0 < orderOf (toEquiv n sigma) := orderOf_pos _
  exact orderLoop_ok h _ 1 sigma h (by rw [pow_one]) le_rfl hpos (by omega)

/-! ### Stabilizer and orbit -/

theorem compute_stabilizer_ok {n x : ℕ} (hx : x ∈ List.range' 1 n) :
    ∀ L : List Pdict, (∀ d ∈ L, ValidPerm n d) →
    compute_stabilizer L x = .ok (L.filter (fun σ => dapply σ x == x)) := by
  intro L
  induction L with
  | nil => intro _; rfl
  | cons σ rest ih =>
    intro hall
    have hσ : ValidPerm n σ := hall σ (List.mem_cons_self _ _)
    have hlook : dlookup σ x = some (dapply σ x) := dlookup_mem_keys (hσ.1 ▸ hx)
    unfold compute_stabilizer
    rw [hlook, ih (fun d hd => hall d (List.mem_cons_of_mem _ hd))]
    by_cases hfix : dapply σ x = x
    · simp [List.filter_cons, hfix]
    · simp [List.filter_cons, hfix]

theorem stab_length {n x : ℕ} (hx1 : 1 ≤ x) (hxn : x ≤ n) :
    ((generate_Sn n).filter (fun σ => dapply σ x == x)).length = (n - 1).factorial := by
  have hx0b : x - 1 < n := by omega
  set x0 : Fin n := ⟨x - 1, hx0b⟩ with hx0def
  have hx01 : (x0 : ℕ) + 1 = x := by show x - 1 + 1 = x; omega
  have hnodup : ((generate_Sn n).filter (fun σ => dapply σ x == x)).Nodup :=
    (nodup_generate_Sn n).filter _
  rw [← List.toFinset_card_of_nodup hnodup]
  have hmemx : x ∈ List.range' 1 n := mem_range_one.mpr ⟨hx1, hxn⟩
  have hcard : ((generate_Sn n).filter (fun σ => dapply σ x == x)).toFinset.card =
      (Finset.univ.filter (fun pi : Equiv.Perm (Fin n) => pi x0 = x0)).card := by
    refine Finset.card_bij (fun d _ => toEquiv n d) ?_ ?_ ?_
    · intro d hd
      rw [List.mem_toFinset, List.mem_filter] at hd
      obtain ⟨hmem, hfixb⟩ := hd
      have hv : ValidPerm n d := mem_generate_Sn.mp hmem
      have hfix : dapply d x = x := by simpa using hfixb
      rw [Finset.mem_filter]
      refine ⟨Finset.mem_univ _, ?_⟩
      apply Fin.ext
      have hco := toEquiv_coe hv x0
      rw [hx01, hfix] at hco
      show ((toEquiv n d) x0 : ℕ) = x - 1
      omega
    · intro d1 h1 d2 h2 heq
      rw [List.mem_toFinset, List.mem_filter] at h1 h2
      exact toEquiv_inj (mem_generate_Sn.mp h1.1) (mem_generate_Sn.mp h2.1) heq
    · intro pi hpi
      rw [Finset.mem_filter] at hpi
      have hfixpi : pi x0 = x0 := hpi.2
      refine ⟨ofEquiv n pi, ?_, toEquiv_ofEquiv pi⟩
      rw [List.mem_toFinset, List.mem_filter]
      refine ⟨mem_generate_Sn.mpr (validPerm_ofEquiv pi), ?_⟩
      have := dapply_ofEquiv pi hmemx
      have hfinx : (⟨x - 1, by rw [mem_range_one] at hmemx; omega⟩ : Fin n) = x0 :=
        Fin.ext rfl
      rw [hfinx, hfixpi] at this
      rw [this]
      simp [hx01]
    
  rw [hcard]
  have hc2 : (Finset.univ.filter (fun pi : Equiv.Perm (Fin n) => pi x0 = x0)).card =
      Fintype.card {pi : Equiv.Perm (Fin n) // pi x0 = x0} :=
    (Fintype.card_subtype _).symm
  rw [hc2]
  have hiff : ∀ (p : {pi : Equiv.Perm (Fin n) // pi x0 = x0}) (y : Fin n),
      y ≠ x0 ↔ p.1 y ≠ x0 := by
    intro p y
    constructor
    · intro hy hc
      exact hy (p.1.injective (hc.trans p.2.symm))
    · intro hy hc
      exact hy (by rw [hc, p.2])
  have hc3 : Fintype.card {pi : Equiv.Perm (Fin n) // pi x0 = x0} =
      Fintype.card (Equiv.Perm {y : Fin n // y ≠ x0}) := by
    refine Fintype.card_congr ⟨fun p => p.1.subtypePerm (hiff p),
      fun t => ⟨Equiv.Perm.ofSubtype t,
        Equiv.Perm.ofSubtype_apply_of_not_mem t (by simp)⟩, ?_, ?_⟩
    · intro p
      refine Subtype.ext ?_
      refine Equiv.Perm.ofSubtype_subtypePerm _ (fun y hy => ?_)
      intro hc
      subst hc
      exact hy p.2
    · intro t
      refine Equiv.ext (fun y => ?_)
      refine Subtype.ext ?_
      show (Equiv.Perm.ofSubtype t) y.1 = (t y).1
      exact Equiv.Perm.ofSubtype_apply_coe t y
  rw [hc3, Fintype.card_perm]
  congr 1
  rw [Fintype.card_subtype]
  rw [Finset.filter_ne' Finset.univ x0, Finset.card_erase_of_mem (Finset.mem_univ _)]
  rw [Finset.card_univ, Fintype.card_fin]

theorem compute_orbit_ok {n x : ℕ} (hx : x ∈ List.range' 1 n) :
    ∀ L : List Pdict, (∀ d ∈ L, ValidPerm n d) →
    compute_orbit L x = .ok ((L.map (fun σ => dapply σ x)).toFinset) := by
  intro L
  induction L with
  | nil => intro _; rfl
  | cons σ rest ih =>
    intro hall
    have hσ : ValidPerm n σ := hall σ (List.mem_cons_self _ _)
    have hlook : dlookup σ x = some (dapply σ x) := dlookup_mem_keys (hσ.1 ▸ hx)
    unfold compute_orbit
    rw [hlook, ih (fun d hd => hall d (List.mem_cons_of_mem _ hd))]
    rw [List.map_cons, List.toFinset_cons]

theorem orbit_eq_Icc {n x : ℕ} (hx1 : 1 ≤ x) (hxn : x ≤ n) :
    ((generate_Sn n).map (fun σ => dapply σ x)).toFinset = Finset.Icc 1 n := by
  have hmemx : x ∈ List.range' 1 n := mem_range_one.mpr ⟨hx1, hxn⟩
  ext y
  rw [List.mem_toFinset, Finset.mem_Icc]
  constructor
  · intro hy
    obtain ⟨σ, hσ, rfl⟩ := List.mem_map.mp hy
    have hv : ValidPerm n σ := mem_generate_Sn.mp hσ
    exact mem_range_one.mp (hv.dapply_mem hmemx)
  · intro hy
    have hyb : y - 1 < n := by omega
    refine List.mem_map.mpr ⟨ofEquiv n (Equiv.swap ⟨x - 1, by omega⟩ ⟨y - 1, hyb⟩),
      mem_generate_Sn.mpr (validPerm_ofEquiv _), ?_⟩
    rw [dapply_ofEquiv _ hmemx]
    rw [show (⟨x - 1, by rw [mem_range_one] at hmemx; omega⟩ : Fin n) =
      (⟨x - 1, by omega⟩ : Fin n) from Fin.ext rfl]
    rw [Equiv.swap_apply_left]
    show y - 1 + 1 = y
    omega

/-! ### `perm_key` and `is_subgroup` -/

theorem perm_key_valid {n : ℕ} {d : Pdict} (h : ValidPerm n d) : perm_key d = d := by
  refine List.Sorted.insertionSort_eq ?_
  have hkeys : List.Pairwise (· < ·) (dictKeys d) := h.1 ▸ List.pairwise_lt_range' 1 n 1
  unfold dictKeys at hkeys
  rw [List.pairwise_map] at hkeys
  exact hkeys.imp (fun hab => Or.inl hab)

theorem subgroupClosureInner_true {n : ℕ} {s : Pdict} {keys : List Pdict}
    (hs : ValidPerm n s) :
    ∀ ts : List Pdict, (∀ t ∈ ts, ValidPerm n t) →
    (∀ t ∈ ts, perm_key (compT s t) ∈ keys) →
    subgroupClosureInner s keys ts = .ok true := by
  intro ts
  induction ts with
  | nil => intro _ _; rfl
  | cons t rest ih =>
    intro hall hmem
    have ht : ValidPerm n t := hall t (List.mem_cons_self _ _)
    unfold subgroupClosureInner
    rw [compose_ok hs ht]
    show (if perm_key (compT s t) ∈ keys then subgroupClosureInner s keys rest
      else Except.ok false) = Except.ok true
    rw [if_pos (hmem t (List.mem_cons_self _ _))]
    exact ih (fun q hq => hall q (List.mem_cons_of_mem _ hq))
      (fun q hq => hmem q (List.mem_cons_of_mem _ hq))

theorem subgroupClosureInner_noerror {n : ℕ} {s : Pdict} {keys : List Pdict}
    (hs : ValidPerm n s) :
    ∀ ts : List Pdict, (∀ t ∈ ts, ValidPerm n t) →
    ∃ b, subgroupClosureInner s keys ts = .ok b := by
  intro ts
  induction ts with
  | nil => intro _; exact ⟨true, rfl⟩
  | cons t rest ih =>
    intro hall
    have ht : ValidPerm n t := hall t (List.mem_cons_self _ _)
    unfold subgroupClosureInner
    rw [compose_ok hs ht]
    show ∃ b, (if perm_key (compT s t) ∈ keys then subgroupClosureInner s keys rest
      else Except.ok false) = Except.ok b
    by_cases hmem : perm_key (compT s t) ∈ keys
    · rw [if_pos hmem]
      exact ih (fun q hq => hall q (List.mem_cons_of_mem _ hq))
    · exact ⟨false, by rw [if_neg hmem]⟩

theorem subgroupClosure_true {n : ℕ} {keys subset : List Pdict}
    (hsub : ∀ t ∈ subset, ValidPerm n t)
    (hmem : ∀ s ∈ subset, ∀ t ∈ subset, perm_key (compT s t) ∈ keys) :
    ∀ ss : List Pdict, (∀ s ∈ ss, s ∈ subset) →
    subgroupClosure keys subset ss = .ok true := by
  intro ss
  induction ss with
  | nil => intro _; rfl
  | cons s rest ih =>
    intro hall
    have hs : s ∈ subset := hall s (List.mem_cons_self _ _)
    unfold subgroupClosure
    rw [subgroupClosureInner_true (hsub s hs) subset hsub (hmem s hs)]
    exact ih (fun q hq => hall q (List.mem_cons_of_mem _ hq))

theorem subgroupClosure_noerror {n : ℕ} (keys : List Pdict) {subset : List Pdict}
    (hsub : ∀ t ∈ subset, ValidPerm n t) :
    ∀ ss : List Pdict, (∀ s ∈ ss, ValidPerm n s) →
    ∃ b, subgroupClosure keys subset ss = .ok b := by
  intro ss
  induction ss with
  | nil => intro _; exact ⟨true, rfl⟩
  | cons s rest ih =>
    intro hall
    obtain ⟨b, hb⟩ := subgroupClosureInner_noerror (hall s (List.mem_cons_self _ _))
      subset hsub
    unfold subgroupClosure
    rw [hb]
    cases b with
    | true => exact ih (fun q hq => hall q (List.mem_cons_of_mem _ hq))
    | false => exact ⟨false, rfl⟩

theorem subgroupInverses_true {keys : List Pdict} :
    ∀ ss : List Pdict, (∀ s ∈ ss, perm_key (inverse s) ∈ keys) →
    subgroupInverses keys ss = .ok true := by
  intro ss
  induction ss with
  | nil => intro _; rfl
  | cons s rest ih =>
    intro hall
    unfold subgroupInverses
    rw [if_pos (hall s (List.mem_cons_self _ _))]
    exact ih (fun q hq => hall q (List.mem_cons_of_mem _ hq))

theorem subgroupInverses_noerror {keys : List Pdict} :
    ∀ ss : List Pdict, ∃ b, subgroupInverses keys ss = .ok b := by
  intro ss
  induction ss with
  | nil => exact ⟨true, rfl⟩
  | cons s rest ih =>
    unfold subgroupInverses
    by_cases hmem : perm_key (inverse s) ∈ keys
    · rw [if_pos hmem]
      exact ih
    · exact ⟨false, by rw [if_neg hmem]⟩

theorem map_perm_key_valid {n : ℕ} {L : List Pdict} (h : ∀ d ∈ L, ValidPerm n d) :
    L.map perm_key = L := by
  have : L.map perm_key = L.map id := List.map_congr_left (fun d hd => perm_key_valid (h d hd))
  simpa using this

theorem is_subgroup_true {n : ℕ} {subset : List Pdict}
    (hsub : ∀ d ∈ subset, ValidPerm n d)
    (hid : identity n ∈ subset)
    (hcl : ∀ a ∈ subset, ∀ b ∈ subset, compT a b ∈ subset)
    (hinv : ∀ a ∈ subset, inverse a ∈ subset) :
    is_subgroup subset n = .ok true := by
  unfold is_subgroup
  simp only [map_perm_key_valid hsub]
  rw [if_neg (by
    rw [perm_key_valid (validPerm_identity n)]
    exact fun hc => hc hid)]
  rw [subgroupClosure_true hsub (fun s hs t ht => by
    rw [perm_key_valid (validPerm_compT (hsub s hs) (hsub t ht))]
    exact hcl s hs t ht) subset (fun s hs => hs)]
  exact subgroupInverses_true subset (fun s hs => by
    rw [perm_key_valid (validPerm_inverse (hsub s hs))]
    exact hinv s hs)

theorem is_subgroup_noerror {n : ℕ} {subset : List Pdict}
    (hsub : ∀ d ∈ subset, ValidPerm n d) :
    ∃ b, is_subgroup subset n = .ok b := by
  unfold is_subgroup
  by_cases hid : perm_key (identity n) ∉ subset.map perm_key
  · exact ⟨false, by rw [if_pos hid]⟩
  · rw [if_neg hid]
    obtain ⟨b, hb⟩ := subgroupClosure_noerror (subset.map perm_key) hsub subset hsub
    rw [hb]
    cases b with
    | true => exact subgroupInverses_noerror subset
    | false => exact ⟨false, rfl⟩

/-! ### Left cosets -/

theorem left_coset_ok {n : ℕ} {sigma : Pdict} (hσ : ValidPerm n sigma) :
    ∀ H : List Pdict, (∀ h ∈ H, ValidPerm n h) →
    left_coset sigma H = .ok (H.map (fun h => compT sigma h)) := by
  intro H
  induction H with
  | nil => intro _; rfl
  | cons h rest ih =>
    intro hall
    unfold left_coset
    rw [compose_ok hσ (hall h (List.mem_cons_self _ _)),
      ih (fun q hq => hall q (List.mem_cons_of_mem _ hq))]
    rfl

theorem cosetT_all_valid {n : ℕ} {H : List Pdict} {sigma : Pdict} (hσ : ValidPerm n sigma)
    (HV : ∀ h ∈ H, ValidPerm n h) :
    ∀ d ∈ H.map (fun h => compT sigma h), ValidPerm n d := by
  intro d hd
  obtain ⟨h, hh, rfl⟩ := List.mem_map.mp hd
  exact validPerm_compT hσ (HV h hh)

theorem self_mem_cosetT {n : ℕ} {H : List Pdict} {sigma : Pdict} (hσ : ValidPerm n sigma)
    (Hid : identity n ∈ H) : sigma ∈ H.map (fun h => compT sigma h) :=
  List.mem_map.mpr ⟨identity n, Hid, compT_identity_right hσ⟩

theorem cosetT_identity {n : ℕ} {H : List Pdict} (HV : ∀ h ∈ H, ValidPerm n h) :
    H.map (fun h => compT (identity n) h) = H := by
  have : H.map (fun h => compT (identity n) h) = H.map id :=
    List.map_congr_left (fun h hh => compT_identity_left (HV h hh))
  simpa using this

theorem cosetT_subset {n : ℕ} {H : List Pdict} {sigma tau : Pdict}
    (hσ : ValidPerm n sigma) (HV : ∀ h ∈ H, ValidPerm n h)
    (Hcl : ∀ a ∈ H, ∀ b ∈ H, compT a b ∈ H)
    (hτ : tau ∈ H.map (fun h => compT sigma h)) :
    ∀ d ∈ H.map (fun h => compT tau h), d ∈ H.map (fun h => compT sigma h) := by
  obtain ⟨h0, hh0, rfl⟩ := List.mem_map.mp hτ
  intro d hd
  obtain ⟨h, hh, rfl⟩ := List.mem_map.mp hd
  refine List.mem_map.mpr ⟨compT h0 h, Hcl h0 hh0 h hh, ?_⟩
  exact (compT_assoc hσ (HV h0 hh0) (HV h hh)).symm

theorem mem_cosetT_symm {n : ℕ} {H : List Pdict} {sigma tau : Pdict}
    (hσ : ValidPerm n sigma) (HV : ∀ h ∈ H, ValidPerm n h)
    (Hid : identity n ∈ H) (Hinv : ∀ a ∈ H, inverse a ∈ H)
    (hτ : tau ∈ H.map (fun h => compT sigma h)) :
    sigma ∈ H.map (fun h => compT tau h) := by
  obtain ⟨h0, hh0, rfl⟩ := List.mem_map.mp hτ
  refine List.mem_map.mpr ⟨inverse h0, Hinv h0 hh0, ?_⟩
  rw [compT_assoc hσ (HV h0 hh0) (validPerm_inverse (HV h0 hh0)),
    compT_inverse_right (HV h0 hh0), compT_identity_right hσ]

theorem cosetT_members_eq {n : ℕ} {H : List Pdict} {sigma tau : Pdict}
    (hσ : ValidPerm n sigma) (HV : ∀ h ∈ H, ValidPerm n h)
    (Hid : identity n ∈ H) (Hcl : ∀ a ∈ H, ∀ b ∈ H, compT a b ∈ H)
    (Hinv : ∀ a ∈ H, inverse a ∈ H)
    (hτ : tau ∈ H.map (fun h => compT sigma h)) :
    ∀ d, d ∈ H.map (fun h => compT tau h) ↔ d ∈ H.map (fun h => compT sigma h) := by
  have hτv : ValidPerm n tau := cosetT_all_valid hσ HV tau hτ
  intro d
  constructor
  · exact fun hd => cosetT_subset hσ HV Hcl hτ d hd
  · have hσmem : sigma ∈ H.map (fun h => compT tau h) := mem_cosetT_symm hσ HV Hid Hinv hτ
    exact fun hd => cosetT_subset hτv HV Hcl hσmem d hd

theorem nodup_cosetT {n : ℕ} {H : List Pdict} {sigma : Pdict} (hσ : ValidPerm n sigma)
    (HV : ∀ h ∈ H, ValidPerm n h) (Hnd : H.Nodup) :
    (H.map (fun h => compT sigma h)).Nodup := by
  refine List.Nodup.map_on ?_ Hnd
  intro a ha b hb hab
  have hcal : ∀ c ∈ H, compT (inverse sigma) (compT sigma c) = c := by
    intro c hc
    rw [← compT_assoc (validPerm_inverse hσ) hσ (HV c hc), compT_inverse_left hσ,
      compT_identity_left (HV c hc)]
  rw [← hcal a ha, ← hcal b hb, hab]

theorem headD_mem_of_ne_nil {α : Type} [Inhabited α] {l : List α} (h : l ≠ []) (d : α) :
    l.headD d ∈ l := by
  cases l with
  | nil => exact absurd rfl h
  | cons a t => exact List.mem_cons_self a t

theorem filter_single {α : Type} {p : α → Bool} :
    ∀ {l : List α} {c : α}, l.Nodup → c ∈ l → p c = true →
    (∀ e ∈ l, p e = true → e = c) → l.filter p = [c] := by
  intro l
  induction l with
  | nil => intro c _ hc _ _; simp at hc
  | cons a t ih =>
    intro c hnd hc hpc huniq
    rw [List.nodup_cons] at hnd
    by_cases hac : a = c
    · subst hac
      rw [List.filter_cons, if_pos hpc]
      have : t.filter p = [] := List.filter_eq_nil_iff.mpr (fun e he hpe =>
        hnd.1 ((huniq e (List.mem_cons_of_mem _ he) hpe) ▸ he))
      rw [this]
    · have hct : c ∈ t := by
        rcases List.mem_cons.mp hc with h | h
        · exact absurd h.symm hac
        · exact h
      rw [List.filter_cons, if_neg (fun hpa => hac (huniq a (List.mem_cons_self _ _) hpa))]
      exact ih hnd.2 hct hpc (fun e he hpe => huniq e (List.mem_cons_of_mem _ he) hpe)

/-! ### The coset-decomposition loop -/

theorem cosetLoop_spec {n : ℕ} {H : List Pdict}
    (HV : ∀ h ∈ H, ValidPerm n h) (Hid : identity n ∈ H)
    (Hcl : ∀ a ∈ H, ∀ b ∈ H, compT a b ∈ H) (Hinv : ∀ a ∈ H, inverse a ∈ H) :
    ∀ (rest : List Pdict) (covered : Finset Pdict) (cosets : List (List Pdict)),
    (∀ σ ∈ rest, ValidPerm n σ) →
    (∀ c ∈ cosets, ∃ σ0, ValidPerm n σ0 ∧ c = H.map (fun h => compT σ0 h)) →
    (∀ d : Pdict, d ∈ covered ↔ ∃ c ∈ cosets, d ∈ c) →
    List.Pairwise List.Disjoint cosets →
    ∃ final, cosetLoop H rest covered cosets = .ok final ∧
      (∀ c ∈ cosets, c ∈ final) ∧
      (∀ c ∈ final, ∃ σ0, ValidPerm n σ0 ∧ c = H.map (fun h => compT σ0 h)) ∧
      List.Pairwise List.Disjoint final ∧
      (∀ σ ∈ rest, ∃ c ∈ final, σ ∈ c) := by
  intro rest
  induction rest with
  | nil =>
    intro covered cosets _ hforms hcov hdisj
    exact ⟨cosets, rfl, fun c hc => hc, hforms, hdisj, by simp⟩
  | cons σ rest' ih =>
    intro covered cosets hall hforms hcov hdisj
    have hσ : ValidPerm n σ := hall σ (List.mem_cons_self _ _)
    have hallrest : ∀ q ∈ rest', ValidPerm n q := fun q hq => hall q (List.mem_cons_of_mem _ hq)
    unfold cosetLoop
    rw [perm_key_valid hσ]
    by_cases hmem : σ ∈ covered
    · rw [if_pos hmem]
      obtain ⟨final, hrun, hsub, hform', hdisj', hcover'⟩ :=
        ih covered cosets hallrest hforms hcov hdisj
      refine ⟨final, hrun, hsub, hform', hdisj', ?_⟩
      intro q hq
      rcases List.mem_cons.mp hq with rfl | hq'
      · obtain ⟨c, hc, hqc⟩ := (hcov q).mp hmem
        exact ⟨c, hsub c hc, hqc⟩
      · exact hcover' q hq'
    · rw [if_neg hmem, left_coset_ok hσ H HV]
      show ∃ final, cosetLoop H rest'
        (covered ∪ ((H.map (fun h => compT σ h)).map perm_key).toFinset)
        (cosets ++ [H.map (fun h => compT σ h)]) = .ok final ∧ _
      set coset := H.map (fun h => compT σ h) with hcosetdef
      have hcosetvalid : ∀ d ∈ coset, ValidPerm n d := cosetT_all_valid hσ HV
      have hkeyid : coset.map perm_key = coset := map_perm_key_valid hcosetvalid
      rw [hkeyid]
      have hforms' : ∀ c ∈ cosets ++ [coset], ∃ σ0, ValidPerm n σ0 ∧
          c = H.map (fun h => compT σ0 h) := by
        intro c hc
        rcases List.mem_append.mp hc with hc | hc
        · exact hforms c hc
        · rw [List.mem_singleton.mp hc]
          exact ⟨σ, hσ, rfl⟩
      have hcov' : ∀ d : Pdict, d ∈ covered ∪ coset.toFinset ↔
          ∃ c ∈ cosets ++ [coset], d ∈ c := by
        intro d
        rw [Finset.mem_union, List.mem_toFinset, hcov d]
        constructor
        · rintro (⟨c, hc, hdc⟩ | hdc)
          · exact ⟨c, List.mem_append_left _ hc, hdc⟩
          · exact ⟨coset, List.mem_append_right _ (List.mem_singleton_self _), hdc⟩
        · rintro ⟨c, hc, hdc⟩
          rcases List.mem_append.mp hc with hc | hc
          · exact Or.inl ⟨c, hc, hdc⟩
          · exact Or.inr (List.mem_singleton.mp hc ▸ hdc)
      have hdisj' : List.Pairwise List.Disjoint (cosets ++ [coset]) := by
        rw [List.pairwise_append]
        refine ⟨hdisj, List.pairwise_singleton _ _, ?_⟩
        intro c hc c' hc'
        rw [List.mem_singleton.mp hc']
        intro d hdc hdcoset
        have hdv : ValidPerm n d := by
          obtain ⟨τ0, hτ0, rfl⟩ := hforms c hc
          exact cosetT_all_valid hτ0 HV d hdc
        have hσd : σ ∈ H.map (fun h => compT d h) :=
          mem_cosetT_symm hσ HV Hid Hinv hdcoset
        have hσc : σ ∈ c := by
          obtain ⟨τ0, hτ0, rfl⟩ := hforms c hc
          exact (cosetT_members_eq hτ0 HV Hid Hcl Hinv hdc σ).mp hσd
        exact hmem ((hcov σ).mpr ⟨c, hc, hσc⟩)
      obtain ⟨final, hrun, hsub, hform'', hdisj'', hcover''⟩ :=
        ih (covered ∪ coset.toFinset) (cosets ++ [coset]) hallrest hforms' hcov' hdisj'
      refine ⟨final, hrun, ?_, hform'', hdisj'', ?_⟩
      · exact fun c hc => hsub c (List.mem_append_left _ hc)
      · intro q hq
        rcases List.mem_cons.mp hq with rfl | hq'
        · exact ⟨coset, hsub coset (List.mem_append_right _ (List.mem_singleton_self _)),
            self_mem_cosetT hσ Hid⟩
        · exact hcover'' q hq'

/-! ### `coset_decomposition` on the full symmetric group -/

theorem coset_decomposition_spec {n : ℕ} {H : List Pdict}
    (HV : ∀ h ∈ H, ValidPerm n h) (Hid : identity n ∈ H)
    (Hcl : ∀ a ∈ H, ∀ b ∈ H, compT a b ∈ H) (Hinv : ∀ a ∈ H, inverse a ∈ H)
    (Hnd : H.Nodup) :
    ∃ cs, coset_decomposition (generate_Sn n) H = .ok cs ∧
      (∀ c ∈ cs, ∃ σ0, ValidPerm n σ0 ∧ c = H.map (fun h => compT σ0 h)) ∧
      List.Pairwise List.Disjoint cs ∧
      (∀ d, (∃ c ∈ cs, d ∈ c) ↔ d ∈ generate_Sn n) ∧
      (∀ c ∈ cs, c.Nodup) ∧
      cs.length * H.length = n.factorial ∧
      (∀ d, d ∈ cs.headD [] ↔ d ∈ H) ∧
      cs ≠ [] := by
  obtain ⟨final, hrun, _, hform, hdisj, hcover⟩ :=
    cosetLoop_spec HV Hid Hcl Hinv (generate_Sn n) ∅ []
      (fun σ hσ => mem_generate_Sn.mp hσ) (by simp) (by simp) (by simp)
  have HneH : H ≠ [] := fun hc => by rw [hc] at Hid; simp at Hid
  have hc_ne : ∀ c ∈ final, c ≠ [] := by
    intro c hc
    obtain ⟨σ0, _, rfl⟩ := hform c hc
    simpa using HneH
  have hall_true : (final.all fun c => !c.isEmpty) = true := by
    rw [List.all_eq_true]
    intro c hc
    have := hc_ne c hc
    cases c with
    | nil => exact absurd rfl this
    | cons a t => rfl
  have hHkeys : H.map perm_key = H := map_perm_key_valid HV
  have hcs_valid : ∀ c ∈ final, ∀ d ∈ c, ValidPerm n d := by
    intro c hc
    obtain ⟨σ0, hσ0, rfl⟩ := hform c hc
    exact cosetT_all_valid hσ0 HV
  -- the coset containing the identity
  have hidSn : identity n ∈ generate_Sn n := mem_generate_Sn.mpr (validPerm_identity n)
  obtain ⟨cstar, hcstar, hidin⟩ := hcover (identity n) hidSn
  obtain ⟨σstar, hσstar, hcstar_eq⟩ := hform cstar hcstar
  have hcstarH : ∀ d, d ∈ H ↔ d ∈ cstar := by
    intro d
    have := cosetT_members_eq hσstar HV Hid Hcl Hinv (hcstar_eq ▸ hidin) d
    rw [cosetT_identity HV] at this
    rw [hcstar_eq]
    exact this
  have hfinal_nodup : final.Nodup := by
    refine hdisj.imp_of_mem ?_
    intro a b ha _ hab
    intro hcontra
    subst hcontra
    obtain ⟨d, hd⟩ := List.exists_mem_of_ne_nil a (hc_ne a ha)
    exact hab hd hd
  set pfun : List Pdict → Bool :=
    fun c => decide (perm_key (c.headD []) ∈ (H.map perm_key).toFinset) with hpfun
  have hp_cstar : pfun cstar = true := by
    rw [hpfun]
    simp only [decide_eq_true_eq, hHkeys, List.mem_toFinset]
    have hmem : cstar.headD [] ∈ cstar := headD_mem_of_ne_nil (hc_ne cstar hcstar) []
    rw [perm_key_valid (hcs_valid cstar hcstar _ hmem)]
    exact (hcstarH _).mpr hmem
  have hp_unique : ∀ c ∈ final, pfun c = true → c = cstar := by
    intro c hc hpc
    rw [hpfun] at hpc
    simp only [decide_eq_true_eq, hHkeys, List.mem_toFinset] at hpc
    have hheadc : c.headD [] ∈ c := headD_mem_of_ne_nil (hc_ne c hc) []
    rw [perm_key_valid (hcs_valid c hc _ hheadc)] at hpc
    -- members of c are exactly H, so the identity lies in c
    obtain ⟨τ0, hτ0, hceq⟩ := hform c hc
    have h1 : ∀ e, e ∈ H.map (fun h => compT (c.headD []) h) ↔ e ∈ c := by
      intro e
      have := cosetT_members_eq hτ0 HV Hid Hcl Hinv (hceq ▸ hheadc) e
      rw [← hceq] at this
      exact this
    have h2 : ∀ e, e ∈ H.map (fun h => compT (c.headD []) h) ↔ e ∈ H := by
      intro e
      have hmemid : c.headD [] ∈ H.map (fun h => compT (identity n) h) := by
        rw [cosetT_identity HV]
        exact hpc
      have := cosetT_members_eq (validPerm_identity n) HV Hid Hcl Hinv hmemid e
      rw [cosetT_identity HV] at this
      exact this
    have hidc : identity n ∈ c := (h1 _).mp ((h2 _).mpr Hid)
    by_contra hne
    have hsymmDisj : Symmetric (List.Disjoint (α := Pdict)) :=
      fun a b h => List.Disjoint.symm h
    have hdisj2 := List.Pairwise.forall hsymmDisj hdisj
    exact hdisj2 hc hcstar hne hidc hidin
  have hfilter : final.filter pfun = [cstar] :=
    filter_single hfinal_nodup hcstar hp_cstar hp_unique
  -- evaluate coset_decomposition
  have hdecomp : coset_decomposition (generate_Sn n) H =
      .ok (stableSortFront pfun final) := by
    unfold coset_decomposition
    rw [hrun]
    show (if (final.all fun c => !c.isEmpty) = true then _ else _) = _
    rw [if_pos hall_true]
  set cs := stableSortFront pfun final with hcsdef
  have hPerm : cs.Perm final := List.filter_append_perm pfun final
  have hcs_shape : cs = cstar :: final.filter (fun c => !(pfun c)) := by
    rw [hcsdef]
    unfold stableSortFront
    rw [hfilter]
    rfl
  refine ⟨cs, hdecomp, ?_, ?_, ?_, ?_, ?_, ?_, ?_⟩
  · exact fun c hc => hform c (hPerm.mem_iff.mp hc)
  · exact (hPerm.pairwise_iff (fun hab => List.Disjoint.symm hab)).mpr hdisj
  · intro d
    constructor
    · rintro ⟨c, hc, hdc⟩
      exact mem_generate_Sn.mpr (hcs_valid c (hPerm.mem_iff.mp hc) d hdc)
    · intro hd
      obtain ⟨c, hc, hdc⟩ := hcover d hd
      exact ⟨c, hPerm.mem_iff.mpr hc, hdc⟩
  · intro c hc
    obtain ⟨σ0, hσ0, rfl⟩ := hform c (hPerm.mem_iff.mp hc)
    exact nodup_cosetT hσ0 HV Hnd
  · -- counting via the flattened list
    have hJnodup : final.flatten.Nodup := by
      rw [List.nodup_flatten]
      refine ⟨fun c hc => ?_, hdisj⟩
      obtain ⟨σ0, hσ0, rfl⟩ := hform c hc
      exact nodup_cosetT hσ0 HV Hnd
    have hJmem : ∀ d, d ∈ final.flatten ↔ d ∈ generate_Sn n := by
      intro d
      rw [List.mem_flatten]
      constructor
      · rintro ⟨c, hc, hdc⟩
        exact mem_generate_Sn.mpr (hcs_valid c hc d hdc)
      · exact fun hd => hcover d hd
    have hJperm : final.flatten.Perm (generate_Sn n) :=
      List.perm_of_nodup_nodup_toFinset_eq hJnodup (nodup_generate_Sn n)
        (Finset.ext (fun d => by rw [List.mem_toFinset, List.mem_toFinset]; exact hJmem d))
    have hJlen : final.flatten.length = n.factorial := by
      rw [hJperm.length_eq, length_generate_Sn]
    have hmaplen : final.map List.length = List.replicate final.length H.length := by
      refine List.eq_replicate_of_mem ?_ |>.trans (by rw [List.length_map])
      intro b hb
      obtain ⟨c, hc, rfl⟩ := List.mem_map.mp hb
      obtain ⟨σ0, _, rfl⟩ := hform c hc
      exact List.length_map _ _
    have : final.length * H.length = n.factorial := by
      rw [← hJlen, List.length_flatten, hmaplen, List.sum_replicate, smul_eq_mul]
    rw [hPerm.length_eq]
    exact this
  · intro d
    rw [hcs_shape]
    show d ∈ cstar ↔ d ∈ H
    exact (hcstarH d).symm
  · rw [hcs_shape]
    simp

/-! ### Iterates of a valid permutation -/

theorem iterate_mem {n : ℕ} {sigma : Pdict} (h : ValidPerm n sigma) {x : ℕ}
    (hx : x ∈ List.range' 1 n) : ∀ j, (dapply sigma)^[j] x ∈ List.range' 1 n := by
  intro j
  induction j with
  | zero => simpa using hx
  | succ j ih =>
    rw [Function.iterate_succ_apply']
    exact h.dapply_mem ih

theorem iterate_inj {n : ℕ} {sigma : Pdict} (h : ValidPerm n sigma) {x y : ℕ}
    (hx : x ∈ List.range' 1 n) (hy : y ∈ List.range' 1 n) :
    ∀ j, (dapply sigma)^[j] x = (dapply sigma)^[j] y → x = y := by
  intro j
  induction j with
  | zero => simpa using id
  | succ j ih =>
    rw [Function.iterate_succ_apply', Function.iterate_succ_apply']
    intro heq
    exact ih (h.dapply_inj (iterate_mem h hx j) (iterate_mem h hy j) heq)

theorem iterate_toEquiv {n : ℕ} {sigma : Pdict} (h : ValidPerm n sigma) (j : ℕ)
    (i : Fin n) :
    (dapply sigma)^[j] (i.1 + 1) = ((toEquiv n sigma ^ j) i : ℕ) + 1 := by
  induction j with
  | zero => simp
  | succ j ih =>
    rw [Function.iterate_succ_apply', ih, ← toEquiv_coe h ((toEquiv n sigma ^ j) i)]
    have hstep : toEquiv n sigma ((toEquiv n sigma ^ j) i) =
        (toEquiv n sigma ^ (j + 1)) i := by
      rw [pow_succ']
      rfl
    rw [hstep]

theorem orbit_exists {n : ℕ} {sigma : Pdict} (h : ValidPerm n sigma) {x : ℕ}
    (hx : x ∈ List.range' 1 n) :
    ∃ j, 0 < j ∧ (dapply sigma)^[j] x = x := by
  rw [mem_range_one] at hx
  have hb : x - 1 < n := by omega
  refine ⟨orderOf (toEquiv n sigma), orderOf_pos _, ?_⟩
  have h1 := iterate_toEquiv h (orderOf (toEquiv n sigma)) ⟨x - 1, hb⟩
  rw [pow_orderOf_eq_one, Equiv.Perm.one_apply] at h1
  rw [show x - 1 + 1 = x from by omega] at h1
  exact h1

theorem orbit_card_le {n : ℕ} {sigma : Pdict} (h : ValidPerm n sigma) {x m : ℕ}
    (hx : x ∈ List.range' 1 n)
    (hmin : ∀ j, 0 < j → j < m → (dapply sigma)^[j] x ≠ x) :
    ((List.range m).map (fun i => (dapply sigma)^[i] x)).Nodup ∧ m ≤ n := by
  have hnodup : ((List.range m).map (fun i => (dapply sigma)^[i] x)).Nodup := by
    refine List.Nodup.map_on ?_ (List.nodup_range m)
    intro a ha b hb hab
    rw [List.mem_range] at ha hb
    by_contra hne
    rcases Nat.lt_or_ge a b with hlt | hge
    · have : (dapply sigma)^[a] ((dapply sigma)^[b - a] x) = (dapply sigma)^[a] x := by
        rw [← Function.iterate_add_apply]
        rw [show a + (b - a) = b from by omega]
        exact hab.symm
      have := iterate_inj h (iterate_mem h hx (b - a)) hx a this
      exact hmin (b - a) (by omega) (by omega) this
    · have hlt : b < a := by omega
      have : (dapply sigma)^[b] ((dapply sigma)^[a - b] x) = (dapply sigma)^[b] x := by
        rw [← Function.iterate_add_apply]
        rw [show b + (a - b) = a from by omega]
        exact hab
      have := iterate_inj h (iterate_mem h hx (a - b)) hx b this
      exact hmin (a - b) (by omega) (by omega) this
  refine ⟨hnodup, ?_⟩
  have hsub : ((List.range m).map (fun i => (dapply sigma)^[i] x)).toFinset ⊆
      (List.range' 1 n).toFinset := by
    intro y hy
    rw [List.mem_toFinset] at hy ⊢
    obtain ⟨i, _, rfl⟩ := List.mem_map.mp hy
    exact iterate_mem h hx i
  have := Finset.card_le_card hsub
  rw [List.toFinset_card_of_nodup hnodup,
    List.toFinset_card_of_nodup (List.nodup_range' 1 n),
    List.length_map, List.length_range, List.length_range'] at this
  exact this

/-! ### The cycle walk -/

theorem iterate_not_mem_visited {n : ℕ} {sigma : Pdict} (h : ValidPerm n sigma)
    {visited : Finset ℕ} {start : ℕ} (hstart : start ∈ List.range' 1 n)
    (hnot : start ∉ visited)
    (hclinv : ∀ v ∈ visited, dapply (inverse sigma) v ∈ visited) :
    ∀ j, (dapply sigma)^[j] start ∉ visited := by
  intro j
  induction j with
  | zero => simpa using hnot
  | succ j ih =>
    intro hmem
    rw [Function.iterate_succ_apply'] at hmem
    have hy : (dapply sigma)^[j] start ∈ List.range' 1 n := iterate_mem h hstart j
    have := hclinv _ hmem
    rw [dapply_inverse_dapply h hy] at this
    exact ih this

theorem orbitList_rotate {sigma : Pdict} {start m : ℕ}
    (hgm : (dapply sigma)^[m] start = start) (hm : 0 < m) :
    ((List.range m).map (fun i => (dapply sigma)^[i] start)).map (dapply sigma) =
      ((List.range m).map (fun i => (dapply sigma)^[i] start)).rotate 1 := by
  obtain ⟨k, rfl⟩ : ∃ k, m = k + 1 := ⟨m - 1, by omega⟩
  have hlhs : ((List.range (k + 1)).map (fun i => (dapply sigma)^[i] start)).map
      (dapply sigma) =
      (List.range (k + 1)).map (fun i => (dapply sigma)^[i + 1] start) := by
    rw [List.map_map]
    exact List.map_congr_left (fun i _ =>
      (Function.iterate_succ_apply' (dapply sigma) i start).symm)
  rw [hlhs]
  have hrhs : ((List.range (k + 1)).map (fun i => (dapply sigma)^[i] start)).rotate 1 =
      ((List.range k).map (fun i => (dapply sigma)^[i + 1] start)) ++ [start] := by
    rw [List.range_succ_eq_map, List.map_cons, List.rotate_cons_succ, List.rotate_zero,
      List.map_map]
    have : ((List.range k).map ((fun i => (dapply sigma)^[i] start) ∘ Nat.succ)) =
        (List.range k).map (fun i => (dapply sigma)^[i + 1] start) :=
      List.map_congr_left (fun i _ => rfl)
    rw [this]
    rfl
  rw [hrhs, List.range_succ, List.map_append]
  congr 1
  show [(dapply sigma)^[k + 1] start] = [start]
  rw [hgm]

theorem cycleWalk_spec {n : ℕ} {sigma : Pdict} (h : ValidPerm n sigma)
    {start m : ℕ} (hstart : start ∈ List.range' 1 n)
    (hm : 0 < m) (hgm : (dapply sigma)^[m] start = start)
    (hmin : ∀ j, 0 < j → j < m → (dapply sigma)^[j] start ≠ start)
    {visited0 : Finset ℕ}
    (hnot : start ∉ visited0)
    (hclinv : ∀ v ∈ visited0, dapply (inverse sigma) v ∈ visited0) :
    ∀ (fuel j : ℕ), j ≤ m → m - j ≤ fuel →
    cycleWalk sigma ((dapply sigma)^[j] start)
      (visited0 ∪ ((List.range j).map (fun i => (dapply sigma)^[i] start)).toFinset)
      ((List.range j).map (fun i => (dapply sigma)^[i] start)) fuel =
    .ok (some ((List.range m).map (fun i => (dapply sigma)^[i] start),
      visited0 ∪ ((List.range m).map (fun i => (dapply sigma)^[i] start)).toFinset)) := by
  have hLnodup := (orbit_card_le h hstart hmin).1
  have hinj := List.inj_on_of_nodup_map hLnodup
  intro fuel
  induction fuel with
  | zero =>
    intro j hj hfuel
    have hjm : j = m := by omega
    subst hjm
    unfold cycleWalk
    rw [if_pos (by
      refine Finset.mem_union_right _ (List.mem_toFinset.mpr ?_)
      rw [hgm]
      exact List.mem_map.mpr ⟨0, List.mem_range.mpr hm, rfl⟩)]
  | succ fuel ih =>
    intro j hj hfuel
    by_cases hjm : j = m
    · subst hjm
      unfold cycleWalk
      rw [if_pos (by
        refine Finset.mem_union_right _ (List.mem_toFinset.mpr ?_)
        rw [hgm]
        exact List.mem_map.mpr ⟨0, List.mem_range.mpr hm, rfl⟩)]
    · have hjlt : j < m := by omega
      have hnotmem : (dapply sigma)^[j] start ∉
          visited0 ∪ ((List.range j).map (fun i => (dapply sigma)^[i] start)).toFinset := by
        rw [Finset.mem_union]
        rintro (hc | hc)
        · exact iterate_not_mem_visited h hstart hnot hclinv j hc
        · rw [List.mem_toFinset] at hc
          obtain ⟨i, hi, hieq⟩ := List.mem_map.mp hc
          rw [List.mem_range] at hi
          have : i = j := hinj (List.mem_range.mpr (by omega)) (List.mem_range.mpr hjlt) hieq
          omega
      unfold cycleWalk
      rw [if_neg hnotmem,
        dlookup_mem_keys (h.1 ▸ iterate_mem h hstart j)]
      show cycleWalk sigma (dapply sigma ((dapply sigma)^[j] start)) _ _ fuel = _
      have hnext : dapply sigma ((dapply sigma)^[j] start) = (dapply sigma)^[j + 1] start :=
        (Function.iterate_succ_apply' _ _ _).symm
      have hvis : insert ((dapply sigma)^[j] start)
          (visited0 ∪ ((List.range j).map (fun i => (dapply sigma)^[i] start)).toFinset) =
          visited0 ∪ ((List.range (j + 1)).map (fun i => (dapply sigma)^[i] start)).toFinset := by
        rw [List.range_succ, List.map_append, List.toFinset_append]
        ext z
        simp only [Finset.mem_insert, Finset.mem_union, List.mem_toFinset,
          List.map_cons, List.map_nil, List.mem_singleton, List.mem_cons,
          List.not_mem_nil, or_false]
        tauto
      have hcyc : ((List.range j).map (fun i => (dapply sigma)^[i] start)) ++
          [(dapply sigma)^[j] start] =
          (List.range (j + 1)).map (fun i => (dapply sigma)^[i] start) := by
        rw [List.range_succ, List.map_append]
        rfl
      rw [hnext, hvis, hcyc]
      exact ih (j + 1) (by omega) (by omega)

/-! ### The outer loop of `to_cycles` -/

theorem toCyclesAux_spec {n : ℕ} {sigma : Pdict} (h : ValidPerm n sigma) :
    ∀ (starts pre : List ℕ) (visited : Finset ℕ) (acc : List (List ℕ)),
    List.range' 1 n = pre ++ starts →
    (∀ k ∈ pre, k ∈ visited) →
    (∀ v ∈ visited, v ∈ List.range' 1 n) →
    (∀ v ∈ visited, dapply sigma v ∈ visited) →
    (∀ v ∈ visited, dapply (inverse sigma) v ∈ visited) →
    (∀ v ∈ visited, dapply sigma v ≠ v → ∃ c ∈ acc, v ∈ c) →
    (∀ c ∈ acc, 2 ≤ c.length ∧ c.Nodup ∧
      (∀ y ∈ c, y ∈ List.range' 1 n ∧ y ∈ visited) ∧
      c.map (dapply sigma) = c.rotate 1 ∧
      (∀ y ∈ c, c.headD 0 ≤ y) ∧ (∀ s ∈ starts, c.headD 0 < s)) →
    List.Pairwise List.Disjoint acc →
    List.Pairwise (· < ·) (acc.map (fun c => c.headD 0)) →
    ∃ cycles, toCyclesAux sigma n starts visited acc = .ok (some cycles) ∧
      (∀ c ∈ acc, c ∈ cycles) ∧
      (∀ c ∈ cycles, 2 ≤ c.length ∧ c.Nodup ∧ (∀ y ∈ c, y ∈ List.range' 1 n) ∧
        c.map (dapply sigma) = c.rotate 1 ∧ (∀ y ∈ c, c.headD 0 ≤ y)) ∧
      List.Pairwise List.Disjoint cycles ∧
      List.Pairwise (· < ·) (cycles.map (fun c => c.headD 0)) ∧
      (∀ x ∈ starts, dapply sigma x ≠ x → ∃ c ∈ cycles, x ∈ c) := by
  intro starts
  induction starts with
  | nil =>
    intro pre visited acc _ _ _ _ _ _ hacc hdisj hheads
    refine ⟨acc, rfl, fun c hc => hc, ?_, hdisj, hheads, by simp⟩
    intro c hc
    obtain ⟨h1, h2, h3, h4, h5, _⟩ := hacc c hc
    exact ⟨h1, h2, fun y hy => (h3 y hy).1, h4, h5⟩
  | cons start rest ih =>
    intro pre visited acc hsplit hprevis hvisrange hclg hclinv hcov hacc hdisj hheads
    have hpw : List.Pairwise (· < ·) (pre ++ start :: rest) :=
      hsplit ▸ List.pairwise_lt_range' 1 n 1
    rw [List.pairwise_append] at hpw
    have hpre_lt : ∀ k ∈ pre, k < start :=
      fun k hk => hpw.2.2 k hk start (List.mem_cons_self _ _)
    have hstart_lt : ∀ s ∈ rest, start < s := (List.pairwise_cons.mp hpw.2.1).1
    have hstartmem : start ∈ List.range' 1 n := by
      rw [hsplit]
      exact List.mem_append_right _ (List.mem_cons_self _ _)
    have hsplit' : List.range' 1 n = (pre ++ [start]) ++ rest := by
      rw [hsplit, List.append_assoc]
      rfl
    by_cases hmem : start ∈ visited
    · unfold toCyclesAux
      rw [if_pos hmem]
      obtain ⟨cycles, hrun, hsub, hfacts, hd, hh, hcover⟩ :=
        ih (pre ++ [start]) visited acc hsplit'
          (by
            intro k hk
            rcases List.mem_append.mp hk with hk | hk
            · exact hprevis k hk
            · rw [List.mem_singleton.mp hk]; exact hmem)
          hvisrange hclg hclinv hcov
          (by
            intro c hc
            obtain ⟨h1, h2, h3, h4, h5, h6⟩ := hacc c hc
            exact ⟨h1, h2, h3, h4, h5, fun s hs => h6 s (List.mem_cons_of_mem _ hs)⟩)
          hdisj hheads
      refine ⟨cycles, hrun, hsub, hfacts, hd, hh, ?_⟩
      intro x hx hfix
      rcases List.mem_cons.mp hx with rfl | hx'
      · obtain ⟨c, hc, hxc⟩ := hcov x hmem hfix
        exact ⟨c, hsub c hc, hxc⟩
      · exact hcover x hx' hfix
    · -- a fresh cycle is walked from `start`
      have hex := orbit_exists h hstartmem
      set m := Nat.find hex with hmdef
      have hmspec : 0 < m ∧ (dapply sigma)^[m] start = start := Nat.find_spec hex
      have hminm : ∀ j, 0 < j → j < m → (dapply sigma)^[j] start ≠ start :=
        fun j hj hjm hc => Nat.find_min hex hjm ⟨hj, hc⟩
      obtain ⟨hLnodup, hmn⟩ := orbit_card_le h hstartmem hminm
      have hw := cycleWalk_spec h hstartmem hmspec.1 hmspec.2 hminm hmem hclinv n 0
        (by omega) (by omega)
      simp only [List.range_zero, List.map_nil, List.toFinset_nil, Finset.union_empty,
        Function.iterate_zero_apply] at hw
      set L : List ℕ := (List.range m).map (fun i => (dapply sigma)^[i] start) with hLdef
      have hLlen : L.length = m := by rw [hLdef, List.length_map, List.length_range]
      have hstartL : start ∈ L := by
        rw [hLdef]
        exact List.mem_map.mpr ⟨0, List.mem_range.mpr hmspec.1, by simp⟩
      have hLmem : ∀ y ∈ L, ∃ i, i < m ∧ y = (dapply sigma)^[i] start := by
        intro y hy
        obtain ⟨i, hi, rfl⟩ := List.mem_map.mp hy
        exact ⟨i, List.mem_range.mp hi, rfl⟩
      have hLrange : ∀ y ∈ L, y ∈ List.range' 1 n := by
        intro y hy
        obtain ⟨i, _, rfl⟩ := hLmem y hy
        exact iterate_mem h hstartmem i
      have hLnotvis : ∀ y ∈ L, y ∉ visited := by
        intro y hy
        obtain ⟨i, _, rfl⟩ := hLmem y hy
        exact iterate_not_mem_visited h hstartmem hmem hclinv i
      have hLclg : ∀ y ∈ L, dapply sigma y ∈ L := by
        intro y hy
        obtain ⟨i, hi, rfl⟩ := hLmem y hy
        have hstep : dapply sigma ((dapply sigma)^[i] start) =
            (dapply sigma)^[i + 1] start :=
          (Function.iterate_succ_apply' (dapply sigma) i start).symm
        rw [hstep]
        by_cases hi1 : i + 1 < m
        · exact List.mem_map.mpr ⟨i + 1, List.mem_range.mpr hi1, rfl⟩
        · have hieq : m = i + 1 := by omega
          have hfix : (dapply sigma)^[i + 1] start = start := hieq ▸ hmspec.2
          rw [hfix]
          exact hstartL
      have hLclinv : ∀ y ∈ L, dapply (inverse sigma) y ∈ L := by
        intro y hy
        obtain ⟨i, hi, rfl⟩ := hLmem y hy
        by_cases hi0 : 0 < i
        · have : (dapply sigma)^[i] start = dapply sigma ((dapply sigma)^[i - 1] start) := by
            rw [← Function.iterate_succ_apply' (dapply sigma) (i - 1) start]
            congr 1
            omega
          rw [this, dapply_inverse_dapply h (iterate_mem h hstartmem (i - 1))]
          exact List.mem_map.mpr ⟨i - 1, List.mem_range.mpr (by omega), rfl⟩
        · have hi0' : i = 0 := by omega
          subst hi0'
          have hstep : dapply sigma ((dapply sigma)^[m - 1] start) =
              (dapply sigma)^[m - 1 + 1] start :=
            (Function.iterate_succ_apply' (dapply sigma) (m - 1) start).symm
          have hm1 : m - 1 + 1 = m := by omega
          have hfix : (dapply sigma)^[0] start =
              dapply sigma ((dapply sigma)^[m - 1] start) := by
            rw [hstep, hm1, hmspec.2]
            rfl
          rw [hfix, dapply_inverse_dapply h (iterate_mem h hstartmem (m - 1))]
          exact List.mem_map.mpr ⟨m - 1, List.mem_range.mpr (by omega), rfl⟩
      have hLhead : L.headD 0 = start := by
        obtain ⟨k, hk⟩ : ∃ k, m = k + 1 := ⟨m - 1, by omega⟩
        rw [hLdef, hk, List.range_succ_eq_map, List.map_cons]
        rfl
      have hLge : ∀ y ∈ L, start ≤ y := by
        intro y hy
        have hynotvis := hLnotvis y hy
        have hyr : y ∈ pre ++ start :: rest := hsplit ▸ hLrange y hy
        rcases List.mem_append.mp hyr with hyp | hyc
        · exact absurd (hprevis y hyp) hynotvis
        · rcases List.mem_cons.mp hyc with rfl | hyrest
          · exact le_refl y
          · exact le_of_lt (hstart_lt y hyrest)
      have hLrot : L.map (dapply sigma) = L.rotate 1 := orbitList_rotate hmspec.2 hmspec.1
      unfold toCyclesAux
      rw [if_neg hmem, hw]
      show ∃ cycles, toCyclesAux sigma n rest (visited ∪ L.toFinset)
        (if 1 < L.length then acc ++ [L] else acc) = .ok (some cycles) ∧ _
      have hvisrange' : ∀ v ∈ visited ∪ L.toFinset, v ∈ List.range' 1 n := by
        intro v hv
        rcases Finset.mem_union.mp hv with hv | hv
        · exact hvisrange v hv
        · exact hLrange v (List.mem_toFinset.mp hv)
      have hclg' : ∀ v ∈ visited ∪ L.toFinset, dapply sigma v ∈ visited ∪ L.toFinset := by
        intro v hv
        rcases Finset.mem_union.mp hv with hv | hv
        · exact Finset.mem_union_left _ (hclg v hv)
        · exact Finset.mem_union_right _
            (List.mem_toFinset.mpr (hLclg v (List.mem_toFinset.mp hv)))
      have hclinv' : ∀ v ∈ visited ∪ L.toFinset,
          dapply (inverse sigma) v ∈ visited ∪ L.toFinset := by
        intro v hv
        rcases Finset.mem_union.mp hv with hv | hv
        · exact Finset.mem_union_left _ (hclinv v hv)
        · exact Finset.mem_union_right _
            (List.mem_toFinset.mpr (hLclinv v (List.mem_toFinset.mp hv)))
      have hprevis' : ∀ k ∈ pre ++ [start], k ∈ visited ∪ L.toFinset := by
        intro k hk
        rcases List.mem_append.mp hk with hk | hk
        · exact Finset.mem_union_left _ (hprevis k hk)
        · rw [List.mem_singleton.mp hk]
          exact Finset.mem_union_right _ (List.mem_toFinset.mpr hstartL)
      by_cases hkeep : 1 < L.length
      · rw [if_pos hkeep]
        have hm2 : 2 ≤ m := by omega
        obtain ⟨cycles, hrun, hsub, hfacts, hd, hh, hcover⟩ :=
          ih (pre ++ [start]) (visited ∪ L.toFinset) (acc ++ [L]) hsplit' hprevis'
            hvisrange' hclg' hclinv'
            (by
              intro v hv hfix
              rcases Finset.mem_union.mp hv with hv | hv
              · obtain ⟨c, hc, hvc⟩ := hcov v hv hfix
                exact ⟨c, List.mem_append_left _ hc, hvc⟩
              · exact ⟨L, List.mem_append_right _ (List.mem_singleton_self _),
                  List.mem_toFinset.mp hv⟩)
            (by
              intro c hc
              rcases List.mem_append.mp hc with hc | hc
              · obtain ⟨h1, h2, h3, h4, h5, h6⟩ := hacc c hc
                refine ⟨h1, h2, fun y hy => ⟨(h3 y hy).1,
                  Finset.mem_union_left _ (h3 y hy).2⟩, h4, h5,
                  fun s hs => h6 s (List.mem_cons_of_mem _ hs)⟩
              · rw [List.mem_singleton.mp hc]
                refine ⟨by omega, hLnodup, fun y hy => ⟨hLrange y hy,
                  Finset.mem_union_right _ (List.mem_toFinset.mpr hy)⟩, hLrot, ?_, ?_⟩
                · intro y hy
                  rw [hLhead]
                  exact hLge y hy
                · intro s hs
                  rw [hLhead]
                  exact hstart_lt s hs)
            (by
              rw [List.pairwise_append]
              refine ⟨hdisj, List.pairwise_singleton _ _, ?_⟩
              intro c hc c' hc' y hyc hyc'
              rw [List.mem_singleton.mp hc'] at hyc'
              obtain ⟨_, _, h3, _, _, _⟩ := hacc c hc
              exact hLnotvis y hyc' (h3 y hyc).2)
            (by
              rw [List.map_append, List.pairwise_append]
              refine ⟨hheads, by simp, ?_⟩
              intro a ha b hb
              obtain ⟨c, hc, rfl⟩ := List.mem_map.mp ha
              simp only [List.map_cons, List.map_nil, List.mem_singleton] at hb
              rw [hb, hLhead]
              obtain ⟨_, _, _, _, _, h6⟩ := hacc c hc
              exact h6 start (List.mem_cons_self _ _))
        refine ⟨cycles, hrun,
          fun c hc => hsub c (List.mem_append_left _ hc), hfacts, hd, hh, ?_⟩
        intro x hx hfix
        rcases List.mem_cons.mp hx with rfl | hx'
        · exact ⟨L, hsub L (List.mem_append_right _ (List.mem_singleton_self _)), hstartL⟩
        · exact hcover x hx' hfix
      · rw [if_neg hkeep]
        have hm1 : m = 1 := by omega
        have hfixstart : dapply sigma start = start := by
          have := hmspec.2
          rw [hm1] at this
          simpa using this
        have hLsingle : ∀ y ∈ L, y = start := by
          intro y hy
          obtain ⟨i, hi, rfl⟩ := hLmem y hy
          rw [hm1] at hi
          interval_cases i
          simp
        obtain ⟨cycles, hrun, hsub, hfacts, hd, hh, hcover⟩ :=
          ih (pre ++ [start]) (visited ∪ L.toFinset) acc hsplit' hprevis'
            hvisrange' hclg' hclinv'
            (by
              intro v hv hfix
              rcases Finset.mem_union.mp hv with hv | hv
              · exact hcov v hv hfix
              · rw [hLsingle v (List.mem_toFinset.mp hv)] at hfix
                exact absurd hfixstart hfix)
            (by
              intro c hc
              obtain ⟨h1, h2, h3, h4, h5, h6⟩ := hacc c hc
              exact ⟨h1, h2, fun y hy => ⟨(h3 y hy).1,
                Finset.mem_union_left _ (h3 y hy).2⟩, h4, h5,
                fun s hs => h6 s (List.mem_cons_of_mem _ hs)⟩)
            hdisj hheads
        refine ⟨cycles, hrun, hsub, hfacts, hd, hh, ?_⟩
        intro x hx hfix
        rcases List.mem_cons.mp hx with rfl | hx'
        · exact absurd hfixstart hfix
        · exact hcover x hx' hfix

theorem to_cycles_spec {n : ℕ} {sigma : Pdict} (h : ValidPerm n sigma) :
    ∃ cycles, to_cycles sigma n = .ok (some cycles) ∧
      (∀ c ∈ cycles, 2 ≤ c.length ∧ c.Nodup ∧ (∀ y ∈ c, y ∈ List.range' 1 n) ∧
        c.map (dapply sigma) = c.rotate 1 ∧ (∀ y ∈ c, c.headD 0 ≤ y)) ∧
      List.Pairwise List.Disjoint cycles ∧
      List.Pairwise (· < ·) (cycles.map (fun c => c.headD 0)) ∧
      (∀ x ∈ List.range' 1 n, dapply sigma x ≠ x → ∃ c ∈ cycles, x ∈ c) := by
  unfold to_cycles
  rw [h.1, List.Sorted.insertionSort_eq
    ((List.pairwise_lt_range' 1 n 1).imp (fun hab => le_of_lt hab))]
  obtain ⟨cycles, hrun, _, hfacts, hd, hh, hcov⟩ :=
    toCyclesAux_spec h (List.range' 1 n) [] ∅ [] (by simp) (by simp) (by simp) (by simp)
      (by simp) (by simp) (by simp) (by simp) (by simp)
  exact ⟨cycles, hrun, hfacts, hd, hh, hcov⟩

theorem to_cycles_identity (n : ℕ) : to_cycles (identity n) n = .ok (some []) := by
  obtain ⟨cycles, hrun, hfacts, _, _, _⟩ := to_cycles_spec (validPerm_identity n)
  have hnil : cycles = [] := by
    cases cycles with
    | nil => rfl
    | cons c rest =>
      exfalso
      obtain ⟨hlen, hnd, hrange, hrot, _⟩ := hfacts c (List.mem_cons_self _ _)
      have hmapid : c.map (dapply (identity n)) = c :=
        (List.map_congr_left (fun y hy =>
          dapply_identity_of_mem (hrange y hy))).trans (List.map_id c)
      rw [hmapid] at hrot
      obtain ⟨a, t⟩ : ∃ a t, c = a :: t := by
        cases c with
        | nil => simp at hlen
        | cons a t => exact ⟨a, t, rfl⟩
      obtain ⟨t, rfl⟩ := t
      cases t with
      | nil => simp at hlen
      | cons b t =>
        rw [List.rotate_cons_succ, List.rotate_zero] at hrot
        have hab : a = b := by
          have := congrArg (fun l => l.headD 0) hrot
          simpa using this
        rw [List.nodup_cons] at hnd
        exact hnd.1 (hab ▸ List.mem_cons_self b t)
  rw [hnil] at hrun
  exact hrun

theorem cycle_notation_str_identity (n : ℕ) :
    cycle_notation_str (identity n) n = .ok (some "e") := by
  unfold cycle_notation_str
  rw [to_cycles_identity n]
  rfl

/-! ### The stabilizer is a subgroup; `verify_stabilizer` succeeds -/

theorem stab_facts {n x : ℕ} (hx1 : 1 ≤ x) (hxn : x ≤ n) :
    (∀ d ∈ (generate_Sn n).filter (fun σ => dapply σ x == x), ValidPerm n d) ∧
    identity n ∈ (generate_Sn n).filter (fun σ => dapply σ x == x) ∧
    (∀ a ∈ (generate_Sn n).filter (fun σ => dapply σ x == x),
      ∀ b ∈ (generate_Sn n).filter (fun σ => dapply σ x == x),
      compT a b ∈ (generate_Sn n).filter (fun σ => dapply σ x == x)) ∧
    (∀ a ∈ (generate_Sn n).filter (fun σ => dapply σ x == x),
      inverse a ∈ (generate_Sn n).filter (fun σ => dapply σ x == x)) ∧
    ((generate_Sn n).filter (fun σ => dapply σ x == x)).Nodup := by
  have hxmem : x ∈ List.range' 1 n := mem_range_one.mpr ⟨hx1, hxn⟩
  have hval : ∀ d ∈ (generate_Sn n).filter (fun σ => dapply σ x == x), ValidPerm n d := by
    intro d hd
    exact mem_generate_Sn.mp (List.mem_filter.mp hd).1
  have hfix : ∀ d ∈ (generate_Sn n).filter (fun σ => dapply σ x == x), dapply d x = x := by
    intro d hd
    have := (List.mem_filter.mp hd).2
    exact beq_iff_eq.mp this
  refine ⟨hval, ?_, ?_, ?_, (nodup_generate_Sn n).filter _⟩
  · rw [List.mem_filter]
    refine ⟨mem_generate_Sn.mpr (validPerm_identity n), ?_⟩
    rw [dapply_identity_of_mem hxmem]
    exact beq_self_eq_true x
  · intro a ha b hb
    rw [List.mem_filter]
    refine ⟨mem_generate_Sn.mpr (validPerm_compT (hval a ha) (hval b hb)), ?_⟩
    rw [dapply_compT (hval a ha) (hval b hb), hfix b hb, hfix a ha]
    exact beq_self_eq_true x
  · intro a ha
    rw [List.mem_filter]
    refine ⟨mem_generate_Sn.mpr (validPerm_inverse (hval a ha)), ?_⟩
    have : dapply (inverse a) x = x := by
      conv_lhs => rw [← hfix a ha]
      exact dapply_inverse_dapply (hval a ha) hxmem
    rw [this]
    exact beq_self_eq_true x

theorem verify_stabilizer_true {n x : ℕ} (hx1 : 1 ≤ x) (hxn : x ≤ n) (verbose : Bool) :
    verify_stabilizer n x verbose = .ok true := by
  have hn : 1 ≤ n := le_trans hx1 hxn
  have hxmem : x ∈ List.range' 1 n := mem_range_one.mpr ⟨hx1, hxn⟩
  have hSnv : ∀ d ∈ generate_Sn n, ValidPerm n d := fun d hd => mem_generate_Sn.mp hd
  obtain ⟨hSv, hSid, hScl, hSinv, hSnd⟩ := stab_facts hx1 hxn
  have hstab : compute_stabilizer (generate_Sn n) x =
      .ok ((generate_Sn n).filter (fun σ => dapply σ x == x)) :=
    compute_stabilizer_ok hxmem _ hSnv
  have horb : compute_orbit (generate_Sn n) x = .ok (Finset.Icc 1 n) := by
    rw [compute_orbit_ok hxmem _ hSnv, orbit_eq_Icc hx1 hxn]
  have hsub : is_subgroup ((generate_Sn n).filter (fun σ => dapply σ x == x)) n = .ok true :=
    is_subgroup_true hSv hSid hScl hSinv
  have hlen : ((generate_Sn n).filter (fun σ => dapply σ x == x)).length =
      (n - 1).factorial := stab_length hx1 hxn
  have hfact : n.factorial = n * (n - 1).factorial := by
    conv_lhs => rw [show n = (n - 1) + 1 from by omega]
    rw [Nat.factorial_succ]
    congr 2
    omega
  obtain ⟨cs, hdecomp, hforms, _, _, _, hmul, _, _⟩ :=
    coset_decomposition_spec hSv hSid hScl hSinv hSnd
  rw [hlen] at hmul
  have hcslen : cs.length = n := by
    refine Nat.eq_of_mul_eq_mul_right (Nat.factorial_pos (n - 1)) ?_
    rw [hmul]
    exact hfact
  have hsum : (cs.map List.length).sum = n.factorial := by
    have hrep : cs.map List.length =
        List.replicate cs.length ((n - 1).factorial) := by
      have := List.eq_replicate_of_mem (l := cs.map List.length)
        (a := (n - 1).factorial) ?_
      · rw [this, List.length_map]
      · intro b hb
        obtain ⟨c, hc, rfl⟩ := List.mem_map.mp hb
        obtain ⟨σ0, _, rfl⟩ := hforms c hc
        rw [List.length_map, ← hlen]
    rw [hrep, List.sum_replicate, smul_eq_mul, ← hmul]
  -- evaluate the do-block of verify_stabilizer
  have hicc : (Finset.Icc 1 n).card = n := by rw [Nat.card_Icc]; omega
  have hc0 : (((n - 1).factorial : ℕ) == 0) = false :=
    beq_eq_false_iff_ne.mpr (Nat.factorial_ne_zero _)
  have hos : ((n.factorial : ℕ) == n * (n - 1).factorial) = true := by
    rw [hfact]
    exact beq_self_eq_true _
  have hidx : n.factorial / (n - 1).factorial = n := by
    rw [hfact]
    exact Nat.mul_div_cancel n (Nat.factorial_pos (n - 1))
  unfold verify_stabilizer
  simp only [hstab, horb, hsub, hdecomp, bind, Except.bind, hlen, length_generate_Sn,
    hicc, hos, hc0, hidx, hcslen, hsum, beq_self_eq_true, Bool.and_self, Bool.true_and,
    Bool.and_true, Bool.false_eq_true, if_false, pure, Except.pure]

/-! ### Totality of the coset functions on arbitrary valid inputs -/

theorem cosetLoop_noerror {n : ℕ} {H : List Pdict} (HV : ∀ h ∈ H, ValidPerm n h) :
    ∀ (rest : List Pdict) (covered : Finset Pdict) (cosets : List (List Pdict)),
    (∀ σ ∈ rest, ValidPerm n σ) →
    (∀ c ∈ cosets, c.length = H.length) →
    ∃ final, cosetLoop H rest covered cosets = .ok final ∧
      ∀ c ∈ final, c.length = H.length := by
  intro rest
  induction rest with
  | nil => intro covered cosets _ hlen; exact ⟨cosets, rfl, hlen⟩
  | cons σ rest' ih =>
    intro covered cosets hall hlen
    have hσ : ValidPerm n σ := hall σ (List.mem_cons_self _ _)
    have hall' : ∀ q ∈ rest', ValidPerm n q := fun q hq => hall q (List.mem_cons_of_mem _ hq)
    unfold cosetLoop
    by_cases hmem : perm_key σ ∈ covered
    · rw [if_pos hmem]
      exact ih covered cosets hall' hlen
    · rw [if_neg hmem, left_coset_ok hσ H HV]
      refine ih _ (cosets ++ [H.map (fun h => compT σ h)]) hall' ?_
      intro c hc
      rcases List.mem_append.mp hc with hc | hc
      · exact hlen c hc
      · rw [List.mem_singleton.mp hc, List.length_map]

theorem coset_decomposition_noerror {n : ℕ} {Snl H : List Pdict}
    (hS : ∀ d ∈ Snl, ValidPerm n d) (HV : ∀ h ∈ H, ValidPerm n h) (Hne : H ≠ []) :
    ∃ cs, coset_decomposition Snl H = .ok cs := by
  obtain ⟨final, hrun, hlenf⟩ := cosetLoop_noerror HV Snl ∅ [] hS (by simp)
  have hall : (final.all fun c => !c.isEmpty) = true := by
    rw [List.all_eq_true]
    intro c hc
    have hlc : c.length = H.length := hlenf c hc
    have : c ≠ [] := by
      intro hcnil
      rw [hcnil] at hlc
      exact Hne (List.eq_nil_of_length_eq_zero hlc.symm)
    cases c with
    | nil => exact absurd rfl this
    | cons a t => rfl
  unfold coset_decomposition
  simp only [hrun, hall]
  exact ⟨_, rfl⟩

theorem verify_stabilizer_noerror {n x : ℕ} (hx1 : 1 ≤ x) (hxn : x ≤ n) (verbose : Bool) :
    ∃ b, verify_stabilizer n x verbose = .ok b :=
  ⟨true, verify_stabilizer_true hx1 hxn verbose⟩

theorem cycle_notation_str_ok {n : ℕ} {sigma : Pdict} (h : ValidPerm n sigma) :
    ∃ s, cycle_notation_str sigma n = .ok (some s) := by
  obtain ⟨cycles, hrun, _⟩ := to_cycles_spec h
  unfold cycle_notation_str
  rw [hrun]
  show ∃ s, (if cycles = [] then Except.ok (some "e")
    else Except.ok (some (String.join (cycles.map
      (fun c => "(" ++ String.intercalate " " (c.map toString) ++ ")"))))) =
    Except.ok (some s)
  by_cases hnil : cycles = []
  · rw [if_pos hnil]
    exact ⟨"e", rfl⟩
  · rw [if_neg hnil]
    exact ⟨_, rfl⟩

/-! ## The claims -/

/-- C3: on every pair of valid permutations of the same domain, `compose` is
associative, `identity(n)` is a two-sided unit for it, and `inverse` gives
two-sided inverses — the group axioms of S_n. -/
theorem claim_C3_group_axioms {n : ℕ} {sigma tau rho : Pdict}
    (hσ : ValidPerm n sigma) (hτ : ValidPerm n tau) (hρ : ValidPerm n rho) :
    (compose sigma tau >>= fun a => compose a rho) =
      (compose tau rho >>= fun b => compose sigma b) ∧
    compose sigma (identity n) = .ok sigma ∧
    compose (identity n) sigma = .ok sigma ∧
    compose sigma (inverse sigma) = .ok (identity n) ∧
    compose (inverse sigma) sigma = .ok (identity n) := by
  refine ⟨?_, ?_, ?_, ?_, ?_⟩
  · rw [compose_ok hσ hτ, compose_ok hτ hρ]
    show compose (compT sigma tau) rho = compose sigma (compT tau rho)
    rw [compose_ok (validPerm_compT hσ hτ) hρ, compose_ok hσ (validPerm_compT hτ hρ),
      compT_assoc hσ hτ hρ]
  · rw [compose_ok hσ (validPerm_identity n), compT_identity_right hσ]
  · rw [compose_ok (validPerm_identity n) hσ, compT_identity_left hσ]
  · rw [compose_ok hσ (validPerm_inverse hσ), compT_inverse_right hσ]
  · rw [compose_ok (validPerm_inverse hσ) hσ, compT_inverse_left hσ]

/-- C3 witness: the axioms verified on a concrete permutation of S_2. -/
theorem claim_C3_group_axioms_witness :
    compose [(1, 2), (2, 1)] (identity 2) = .ok [(1, 2), (2, 1)] ∧
    compose [(1, 2), (2, 1)] (inverse [(1, 2), (2, 1)]) = .ok (identity 2) :=
  ⟨(@claim_C3_group_axioms 2 [(1, 2), (2, 1)] [(1, 2), (2, 1)] [(1, 2), (2, 1)]
      (by decide) (by decide) (by decide)).2.1,
   (@claim_C3_group_axioms 2 [(1, 2), (2, 1)] [(1, 2), (2, 1)] [(1, 2), (2, 1)]
      (by decide) (by decide) (by decide)).2.2.2.1⟩

/-- C5: `power` turns integer addition into composition,
`power(sigma, -1)` is `inverse(sigma)`, and `power(sigma, 0)` is
`identity(n)`, on every valid permutation of `{1..n}`. -/
theorem claim_C5_power_laws {n : ℕ} {sigma : Pdict} (h : ValidPerm n sigma) (a b : ℤ) :
    power sigma (a + b) =
      (power sigma a >>= fun pa => power sigma b >>= fun pb => compose pa pb) ∧
    power sigma (-1) = .ok (inverse sigma) ∧
    power sigma 0 = .ok (identity n) := by
  obtain ⟨ra, hra, hrav, hrae⟩ := power_ok h a
  obtain ⟨rb, hrb, hrbv, hrbe⟩ := power_ok h b
  obtain ⟨rab, hrab, hrabv, hrabe⟩ := power_ok h (a + b)
  refine ⟨?_, ?_, ?_⟩
  · rw [hra, hrb, hrab]
    show Except.ok rab = compose ra rb
    rw [compose_ok hrav hrbv]
    refine congrArg Except.ok (toEquiv_inj hrabv (validPerm_compT hrav hrbv) ?_)
    rw [hrabe, toEquiv_compT hrav hrbv, hrae, hrbe, zpow_add]
  · obtain ⟨r, hr, hrv, hre⟩ := power_ok h (-1)
    rw [hr]
    refine congrArg Except.ok (toEquiv_inj hrv (validPerm_inverse h) ?_)
    rw [hre, toEquiv_inverse h, zpow_neg, zpow_one]
  · unfold power
    rw [if_pos rfl, h.length_eq]

/-- C5 witness: the power laws at a concrete permutation and exponents. -/
theorem claim_C5_power_laws_witness :
    power [(1, 2), (2, 1)] (2 + 3) =
      (power [(1, 2), (2, 1)] 2 >>= fun pa =>
        power [(1, 2), (2, 1)] 3 >>= fun pb => compose pa pb) ∧
    power [(1, 2), (2, 1)] (-1) = .ok (inverse [(1, 2), (2, 1)]) :=
  ⟨(claim_C5_power_laws (n := 2) (by decide) 2 3).1,
   (claim_C5_power_laws (n := 2) (by decide) 2 3).2.1⟩

/-- C4: on every valid permutation of `{1..n}` (any `n ≥ 0`) the `order`
loop terminates, its result is the least positive `k` with
`power(sigma, k) == identity(n)`, that result divides `n!`, and the
identity itself has order 1. -/
theorem claim_C4_order {n : ℕ} {sigma : Pdict} (h : ValidPerm n sigma) :
    (∃ k, (∃ fuel, orderFuel sigma fuel = .ok (some k)) ∧
      0 < k ∧ power sigma (k : ℤ) = .ok (identity n) ∧
      (∀ j : ℕ, 0 < j → j < k → power sigma (j : ℤ) ≠ .ok (identity n)) ∧
      k ∣ n.factorial) ∧
    (∃ fuel, orderFuel (identity n) fuel = .ok (some 1)) := by
  constructor
  · refine ⟨orderOf (toEquiv n sigma), ⟨orderOf (toEquiv n sigma) - 1, orderFuel_ok h⟩,
      orderOf_pos _, ?_, ?_, ?_⟩
    · obtain ⟨r, hr, hrv, hre⟩ := power_ok h (orderOf (toEquiv n sigma) : ℤ)
      rw [hr]
      refine congrArg Except.ok (toEquiv_inj hrv (validPerm_identity n) ?_)
      rw [hre, toEquiv_identity, zpow_natCast, pow_orderOf_eq_one]
    · intro j hj hjk hcontra
      obtain ⟨r, hr, hrv, hre⟩ := power_ok h (j : ℤ)
      rw [hr] at hcontra
      have : r = identity n := Except.ok.inj hcontra
      rw [this, toEquiv_identity, zpow_natCast] at hre
      have := orderOf_le_of_pow_eq_one hj hre.symm
      omega
    · have := orderOf_dvd_card (x := toEquiv n sigma)
      rwa [Fintype.card_perm, Fintype.card_fin] at this
  · refine ⟨0, ?_⟩
    unfold orderFuel orderLoop
    rw [(validPerm_identity n).length_eq, if_pos rfl]

/-- C4 witness: the transposition of S_2 has order 2, which divides 2!. -/
theorem claim_C4_order_witness :
    (∃ k, (∃ fuel, orderFuel [(1, 2), (2, 1)] fuel = .ok (some k)) ∧
      0 < k ∧ power [(1, 2), (2, 1)] (k : ℤ) = .ok (identity 2) ∧
      (∀ j : ℕ, 0 < j → j < k →
        power [(1, 2), (2, 1)] (j : ℤ) ≠ .ok (identity 2)) ∧
      k ∣ Nat.factorial 2) ∧
    (∃ fuel, orderFuel (identity 2) fuel = .ok (some 1)) :=
  claim_C4_order (n := 2) (by decide)

/-- C6: `generate_Sn(n)` is a duplicate-free list of exactly `n!`
permutations whose members are precisely the valid permutations of
`{1..n}` (it contains every bijection of that set, and nothing else). -/
theorem claim_C6_generate_Sn (n : ℕ) :
    (generate_Sn n).length = n.factorial ∧
    (generate_Sn n).Nodup ∧
    (∀ d, d ∈ generate_Sn n ↔ ValidPerm n d) :=
  ⟨length_generate_Sn n, nodup_generate_Sn n, fun _ => mem_generate_Sn⟩

/-- C7: `compose` applies `tau` first and `sigma` second on a shared
domain; it raises `ValueError` exactly when the two key sets differ, and
never otherwise on dict inputs accepted by `make_permutation`. -/
theorem claim_C7_compose {sigma tau : Pdict}
    (hσn : (dictKeys sigma).Nodup) (hτn : (dictKeys tau).Nodup)
    (hσb : (dictKeys sigma).toFinset = (dictValues sigma).toFinset)
    (hτb : (dictKeys tau).toFinset = (dictValues tau).toFinset) :
    ((dictKeys sigma).toFinset = (dictKeys tau).toFinset →
      ∃ r, compose sigma tau = .ok r ∧
        ∀ i ∈ dictKeys tau, dapply r i = dapply sigma (dapply tau i)) ∧
    ((dictKeys sigma).toFinset ≠ (dictKeys tau).toFinset →
      compose sigma tau = .error PyErr.valueError) := by
  constructor
  · intro heq
    have hok : composeAux sigma tau = .ok (compT sigma tau) := by
      refine composeAux_ok (fun p hp => ?_)
      have h1 : p.2 ∈ (dictValues tau).toFinset :=
        List.mem_toFinset.mpr (List.mem_map.mpr ⟨p, hp, rfl⟩)
      rw [← hτb, ← heq] at h1
      exact List.mem_toFinset.mp h1
    refine ⟨compT sigma tau, ?_, ?_⟩
    · unfold compose
      rw [if_pos heq]
      exact hok
    · intro i hi
      have hkeys : dictKeys (compT sigma tau) = dictKeys tau := by
        unfold dictKeys compT
        rw [List.map_map]
        exact List.map_congr_left (fun p _ => rfl)
      have hmem : (i, dapply sigma (dapply tau i)) ∈ compT sigma tau := by
        have := mem_of_dapply_entry hi
        exact List.mem_map.mpr ⟨(i, dapply tau i), this, rfl⟩
      exact dapply_entry (hkeys ▸ hτn) hmem
  · intro hne
    unfold compose
    rw [if_neg hne]

/-- C7 witness: composing two concrete same-domain permutations. -/
theorem claim_C7_compose_witness :
    ∃ r, compose [(1, 2), (2, 1)] [(1, 1), (2, 2)] = .ok r ∧
      ∀ i ∈ dictKeys [(1, 1), (2, 2)],
        dapply r i = dapply [(1, 2), (2, 1)] (dapply [(1, 1), (2, 2)] i) :=
  (claim_C7_compose (by decide) (by decide) (by decide) (by decide)).1 (by decide)

/-- C10: `make_permutation` accepts a mapping (returning it unchanged)
exactly when its key set coincides with its value set, raising
`ValueError` otherwise; in particular `{5: 7, 7: 5}` is accepted even
though its domain is not of the form `{1..n}`. -/
theorem claim_C10_make_permutation :
    (∀ mapping : Pdict,
      (∃ r, make_permutation mapping = .ok r ∧ r = mapping) ↔
      (∀ k, k ∈ dictKeys mapping ↔ k ∈ dictValues mapping)) ∧
    (∀ mapping : Pdict,
      ¬(∀ k, k ∈ dictKeys mapping ↔ k ∈ dictValues mapping) →
      make_permutation mapping = .error PyErr.valueError) ∧
    make_permutation [(5, 7), (7, 5)] = .ok [(5, 7), (7, 5)] := by
  have hkey : ∀ mapping : Pdict,
      (dictKeys mapping).toFinset = (dictValues mapping).toFinset ↔
      (∀ k, k ∈ dictKeys mapping ↔ k ∈ dictValues mapping) := by
    intro mapping
    constructor
    · intro hf k
      rw [← List.mem_toFinset, hf, List.mem_toFinset]
    · intro hm
      exact Finset.ext (fun k => by
        rw [List.mem_toFinset, List.mem_toFinset]; exact hm k)
  refine ⟨?_, ?_, by decide⟩
  · intro mapping
    unfold make_permutation
    constructor
    · intro ⟨r, hr, _⟩
      rw [← hkey]
      by_contra hne
      rw [if_neg hne] at hr
      exact Except.noConfusion hr
    · intro hm
      rw [if_pos ((hkey mapping).mpr hm)]
      exact ⟨mapping, rfl, rfl⟩
  · intro mapping hne
    unfold make_permutation
    rw [if_neg (fun hc => hne ((hkey mapping).mp hc))]

/-- C1: for every `n ≥ 1` and fixed point `x ∈ {1..n}` (and either verbosity),
`verify_stabilizer(n, x, verbose)` returns `True`, and each of its five
checks holds: the stabilizer passes `is_subgroup`, has `(n-1)!` elements,
satisfies the orbit–stabilizer identity, has index `n` in S_n, and its
coset decomposition has exactly `n` cosets whose sizes sum to `n!`. -/
theorem claim_C1_verify_stabilizer {n x : ℕ} (hn : 1 ≤ n) (hx1 : 1 ≤ x) (hxn : x ≤ n)
    (verbose : Bool) :
    verify_stabilizer n x verbose = .ok true ∧
    ∃ stab orb cosets,
      compute_stabilizer (generate_Sn n) x = .ok stab ∧
      is_subgroup stab n = .ok true ∧
      stab.length = (n - 1).factorial ∧
      compute_orbit (generate_Sn n) x = .ok orb ∧
      (generate_Sn n).length = orb.card * stab.length ∧
      (generate_Sn n).length / stab.length = n ∧
      coset_decomposition (generate_Sn n) stab = .ok cosets ∧
      cosets.length = n ∧
      (cosets.map List.length).sum = (generate_Sn n).length := by
  refine ⟨verify_stabilizer_true hx1 hxn verbose, ?_⟩
  have hxmem : x ∈ List.range' 1 n := mem_range_one.mpr ⟨hx1, hxn⟩
  have hSnv : ∀ d ∈ generate_Sn n, ValidPerm n d := fun d hd => mem_generate_Sn.mp hd
  obtain ⟨hSv, hSid, hScl, hSinv, hSnd⟩ := stab_facts hx1 hxn
  have hlen : ((generate_Sn n).filter (fun σ => dapply σ x == x)).length =
      (n - 1).factorial := stab_length hx1 hxn
  have hfact : n.factorial = n * (n - 1).factorial := by
    conv_lhs => rw [show n = (n - 1) + 1 from by omega]
    rw [Nat.factorial_succ]
    congr 2
    omega
  obtain ⟨cs, hdecomp, hforms, _, _, _, hmul, _, _⟩ :=
    coset_decomposition_spec hSv hSid hScl hSinv hSnd
  rw [hlen] at hmul
  have hcslen : cs.length = n := by
    refine Nat.eq_of_mul_eq_mul_right (Nat.factorial_pos (n - 1)) ?_
    rw [hmul]
    exact hfact
  have hicc : (Finset.Icc 1 n).card = n := by rw [Nat.card_Icc]; omega
  refine ⟨(generate_Sn n).filter (fun σ => dapply σ x == x), Finset.Icc 1 n, cs,
    compute_stabilizer_ok hxmem _ hSnv,
    is_subgroup_true hSv hSid hScl hSinv, hlen, ?_, ?_, ?_, hdecomp, hcslen, ?_⟩
  · rw [compute_orbit_ok hxmem _ hSnv, orbit_eq_Icc hx1 hxn]
  · rw [length_generate_Sn, hicc, hlen, ← hfact]
  · rw [length_generate_Sn, hlen, hfact]
    exact Nat.mul_div_cancel n (Nat.factorial_pos (n - 1))
  · have hrep : cs.map List.length = List.replicate cs.length ((n - 1).factorial) := by
      have hmemlen : ∀ b ∈ cs.map List.length, b = (n - 1).factorial := by
        intro b hb
        obtain ⟨c, hc, rfl⟩ := List.mem_map.mp hb
        obtain ⟨σ0, _, rfl⟩ := hforms c hc
        rw [List.length_map, ← hlen]
      have := List.eq_replicate_of_mem hmemlen
      rw [this, List.length_map]
    rw [hrep, List.sum_replicate, smul_eq_mul, length_generate_Sn, ← hmul]

/-- C1 witness: the full verification at `n = 2`, `x = 1`. -/
theorem claim_C1_verify_stabilizer_witness :
    verify_stabilizer 2 1 true = .ok true :=
  (claim_C1_verify_stabilizer (by decide) (by decide) (by decide) true).1

/-- C2: for every `n ≥ 1` and every duplicate-free subset `H` of
`generate_Sn(n)` closed under the subgroup axioms,
`coset_decomposition(generate_Sn(n), H)` returns exactly
`len(Sn) // len(H)` cosets; they are pairwise disjoint, their union is
exactly S_n with every element in exactly one coset, and the first coset
equals `H` as a set. -/
theorem claim_C2_coset_partition {n : ℕ} {H : List Pdict} (hn : 1 ≤ n)
    (hsub : ∀ h ∈ H, h ∈ generate_Sn n) (hnd : H.Nodup)
    (hid : identity n ∈ H)
    (hcl : ∀ a ∈ H, ∀ b ∈ H, ∃ c ∈ H, compose a b = .ok c)
    (hinv : ∀ a ∈ H, inverse a ∈ H) :
    ∃ cosets, coset_decomposition (generate_Sn n) H = .ok cosets ∧
      cosets.length = (generate_Sn n).length / H.length ∧
      List.Pairwise List.Disjoint cosets ∧
      (∀ d, (∃ c ∈ cosets, d ∈ c) ↔ d ∈ generate_Sn n) ∧
      (∀ d ∈ generate_Sn n, ∃ c ∈ cosets, d ∈ c ∧ ∀ c' ∈ cosets, d ∈ c' → c' = c) ∧
      (∀ d, d ∈ cosets.headD [] ↔ d ∈ H) := by
  have HV : ∀ h ∈ H, ValidPerm n h := fun h hh => mem_generate_Sn.mp (hsub h hh)
  have Hcl : ∀ a ∈ H, ∀ b ∈ H, compT a b ∈ H := by
    intro a ha b hb
    obtain ⟨c, hc, hceq⟩ := hcl a ha b hb
    rw [compose_ok (HV a ha) (HV b hb)] at hceq
    rw [← Except.ok.inj hceq] at hc
    exact hc
  obtain ⟨cs, hdecomp, hforms, hdisj, hcoviff, _, hmul, hhead, _⟩ :=
    coset_decomposition_spec HV hid Hcl hinv hnd
  have hHpos : 0 < H.length := List.length_pos.mpr (fun hc => by
    rw [hc] at hid
    simp at hid)
  refine ⟨cs, hdecomp, ?_, hdisj, hcoviff, ?_, hhead⟩
  · rw [length_generate_Sn, ← hmul, Nat.mul_div_cancel _ hHpos]
  · intro d hd
    obtain ⟨c, hc, hdc⟩ := (hcoviff d).mpr hd
    refine ⟨c, hc, hdc, ?_⟩
    intro c' hc' hdc'
    by_contra hne
    have hsymmDisj : Symmetric (List.Disjoint (α := Pdict)) :=
      fun a b hab => List.Disjoint.symm hab
    exact (List.Pairwise.forall hsymmDisj hdisj) hc' hc hne hdc' hdc

/-- C2 witness: the trivial subgroup of S_2 decomposes S_2 into two cosets. -/
theorem claim_C2_coset_partition_witness :
    ∃ cosets, coset_decomposition (generate_Sn 2) [identity 2] = .ok cosets ∧
      cosets.length = (generate_Sn 2).length / [identity 2].length ∧
      List.Pairwise List.Disjoint cosets ∧
      (∀ d, (∃ c ∈ cosets, d ∈ c) ↔ d ∈ generate_Sn 2) ∧
      (∀ d ∈ generate_Sn 2, ∃ c ∈ cosets, d ∈ c ∧ ∀ c' ∈ cosets, d ∈ c' → c' = c) ∧
      (∀ d, d ∈ cosets.headD [] ↔ d ∈ [identity 2]) :=
  claim_C2_coset_partition (by decide) (by decide) (by decide) (by decide)
    (by
      intro a ha b hb
      have ha' : a = identity 2 := List.mem_singleton.mp ha
      have hb' : b = identity 2 := List.mem_singleton.mp hb
      subst ha'
      subst hb'
      exact ⟨identity 2, List.mem_singleton_self _, by decide⟩)
    (by decide)

/-- C9: on every valid permutation of `{1..n}`, `to_cycles` returns the
disjoint cycles: each kept cycle has length at least 2, is duplicate free,
maps each listed point to the next under `sigma` (wrapping around), starts
at its smallest element, the cycles are ordered by smallest element
ascending, every non-fixed point appears in a cycle, and the identity
yields `[]` with cycle string `"e"`. -/
theorem claim_C9_to_cycles {n : ℕ} {sigma : Pdict} (h : ValidPerm n sigma) :
    ∃ cycles, to_cycles sigma n = .ok (some cycles) ∧
      (∀ c ∈ cycles, 2 ≤ c.length) ∧
      (∀ c ∈ cycles, c.Nodup) ∧
      List.Pairwise List.Disjoint cycles ∧
      (∀ c ∈ cycles, c.map (dapply sigma) = c.rotate 1) ∧
      (∀ c ∈ cycles, ∀ y ∈ c, c.headD 0 ≤ y) ∧
      List.Pairwise (· < ·) (cycles.map (fun c => c.headD 0)) ∧
      (∀ x ∈ List.range' 1 n, dapply sigma x ≠ x → ∃ c ∈ cycles, x ∈ c) ∧
      to_cycles (identity n) n = .ok (some []) ∧
      cycle_notation_str (identity n) n = .ok (some "e") := by
  obtain ⟨cycles, hrun, hfacts, hdisj, hheads, hcov⟩ := to_cycles_spec h
  exact ⟨cycles, hrun,
    fun c hc => (hfacts c hc).1,
    fun c hc => (hfacts c hc).2.1,
    hdisj,
    fun c hc => (hfacts c hc).2.2.2.1,
    fun c hc => (hfacts c hc).2.2.2.2,
    hheads, hcov, to_cycles_identity n, cycle_notation_str_identity n⟩

/-- C9 witness: the 3-cycle `(1 2 3)` of S_3. -/
theorem claim_C9_to_cycles_witness :
    ∃ cycles, to_cycles [(1, 2), (2, 3), (3, 1)] 3 = .ok (some cycles) ∧
      (∀ c ∈ cycles, 2 ≤ c.length) ∧
      (∀ c ∈ cycles, c.Nodup) ∧
      List.Pairwise List.Disjoint cycles ∧
      (∀ c ∈ cycles, c.map (dapply [(1, 2), (2, 3), (3, 1)]) = c.rotate 1) ∧
      (∀ c ∈ cycles, ∀ y ∈ c, c.headD 0 ≤ y) ∧
      List.Pairwise (· < ·) (cycles.map (fun c => c.headD 0)) ∧
      (∀ x ∈ List.range' 1 3, dapply [(1, 2), (2, 3), (3, 1)] x ≠ x →
        ∃ c ∈ cycles, x ∈ c) ∧
      to_cycles (identity 3) 3 = .ok (some []) ∧
      cycle_notation_str (identity 3) 3 = .ok (some "e") :=
  claim_C9_to_cycles (n := 3) (by decide)

/-- C8 counterexample: `{5: 7, 7: 5}` is a well-formed permutation (it is
accepted by `make_permutation`), yet `power` raises `ValueError` on it,
because `power` builds its accumulator from `identity(len(sigma))`, whose
domain `{1, 2}` differs from `{5, 7}`.  So the claim fails as stated. -/
theorem claim_C8_counterexample :
    (∃ r, make_permutation [(5, 7), (7, 5)] = .ok r) ∧
    power [(5, 7), (7, 5)] 1 = .error PyErr.valueError := by
  constructor
  · exact ⟨[(5, 7), (7, 5)], by decide⟩
  · decide

/-- C8 (amended): every function other than `make_permutation` and
`compose` is total and never raises when its permutation arguments are
valid permutations of a domain of the shape `{1..n}`, group arguments are
lists of such permutations (non-empty for the subgroup argument of
`coset_decomposition`), and point arguments lie in `{1..n}`. -/
theorem claim_C8_amended_totality (n : ℕ) :
    (∀ sigma, ValidPerm n sigma → ValidPerm n (inverse sigma)) ∧
    (∀ sigma, ValidPerm n sigma → ∀ k : ℤ, ∃ r, power sigma k = .ok r) ∧
    (∀ sigma, ValidPerm n sigma → ∃ fuel k, orderFuel sigma fuel = .ok (some k)) ∧
    (∀ d ∈ generate_Sn n, ValidPerm n d) ∧
    (∀ sigma, ValidPerm n sigma → ∃ cs, to_cycles sigma n = .ok (some cs)) ∧
    (∀ sigma, ValidPerm n sigma → ∃ s, cycle_notation_str sigma n = .ok (some s)) ∧
    (∀ subset : List Pdict, (∀ d ∈ subset, ValidPerm n d) →
      ∃ b, is_subgroup subset n = .ok b) ∧
    (∀ L : List Pdict, (∀ d ∈ L, ValidPerm n d) → ∀ x ∈ List.range' 1 n,
      ∃ l, compute_stabilizer L x = .ok l) ∧
    (∀ L : List Pdict, (∀ d ∈ L, ValidPerm n d) → ∀ x ∈ List.range' 1 n,
      ∃ s, compute_orbit L x = .ok s) ∧
    (∀ sigma, ValidPerm n sigma → ∀ H : List Pdict, (∀ h ∈ H, ValidPerm n h) →
      ∃ l, left_coset sigma H = .ok l) ∧
    (∀ Snl H : List Pdict, (∀ d ∈ Snl, ValidPerm n d) → (∀ h ∈ H, ValidPerm n h) →
      H ≠ [] → ∃ cs, coset_decomposition Snl H = .ok cs) ∧
    (∀ x, 1 ≤ x → x ≤ n → ∀ verbose, ∃ b, verify_stabilizer n x verbose = .ok b) := by
  refine ⟨?_, ?_, ?_, ?_, ?_, ?_, ?_, ?_, ?_, ?_, ?_, ?_⟩
  · exact fun sigma h => validPerm_inverse h
  · intro sigma h k
    obtain ⟨r, hr, _, _⟩ := power_ok h k
    exact ⟨r, hr⟩
  · exact fun sigma h => ⟨orderOf (toEquiv n sigma) - 1, orderOf (toEquiv n sigma),
      orderFuel_ok h⟩
  · exact fun d hd => mem_generate_Sn.mp hd
  · intro sigma h
    obtain ⟨cs, hcs, _⟩ := to_cycles_spec h
    exact ⟨cs, hcs⟩
  · exact fun sigma h => cycle_notation_str_ok h
  · exact fun subset hsub => is_subgroup_noerror hsub
  · exact fun L hL x hx => ⟨_, compute_stabilizer_ok hx L hL⟩
  · exact fun L hL x hx => ⟨_, compute_orbit_ok hx L hL⟩
  · exact fun sigma h H hH => ⟨_, left_coset_ok h H hH⟩
  · exact fun Snl H hS hH hne => coset_decomposition_noerror hS hH hne
  · exact fun x hx1 hxn verbose => verify_stabilizer_noerror hx1 hxn verbose

/-- C8 amended-claim witness: totality of `power` and `verify_stabilizer`
at concrete inputs of S_2. -/
theorem claim_C8_amended_totality_witness :
    (∃ r, power [(1, 2), (2, 1)] 5 = .ok r) ∧
    (∃ b, verify_stabilizer 2 1 true = .ok b) :=
  ⟨(claim_C8_amended_totality 2).2.1 [(1, 2), (2, 1)] (by decide) 5,
   (claim_C8_amended_totality 2).2.2.2.2.2.2.2.2.2.2.2 1 (by decide) (by decide) true⟩

/-- C6 witness: `generate_Sn 3` has `3! = 6` distinct elements. -/
theorem claim_C6_generate_Sn_witness :
    (generate_Sn 3).length = Nat.factorial 3 ∧ (generate_Sn 3).Nodup :=
  ⟨(claim_C6_generate_Sn 3).1, (claim_C6_generate_Sn 3).2.1⟩

/-- C10 witness: the out-of-range mapping `{5: 7, 7: 5}` is accepted. -/
theorem claim_C10_make_permutation_witness :
    make_permutation [(5, 7), (7, 5)] = .ok [(5, 7), (7, 5)] :=
  claim_C10_make_permutation.2.2

end SymVer
